import Mathlib

/-!
Verification of the IniFile library (`include/inifile/inifile.h`).

Shallow embedding conventions:
* `std::string` is modelled as `List Char` (`Str`); the library treats strings
  as plain character sequences and all relevant characters are ASCII.
* the C library functions `strtoll` / `strtoull` (external collaborators of
  the header) are modelled from their C-standard semantics, including the
  `ERANGE` clamping behaviour and the `end_ptr` reporting used by the header.
* `std::unordered_map` is modelled as an association list whose list order
  stands for the map's (implementation defined) iteration order.
-/

namespace Ini

/-- Character-list model of `std::string`. -/
abbrev Str := List Char

/-- Whitespace set `detail::whitespaces = " \t\n\r\f\v"`; this is also the set
recognised by `isspace` in the C locale (used by `strtoll`). -/
def isWs (c : Char) : Bool :=
  c = ' ' || c = '\t' || c = '\n' || c = '\r' || c = '\x0c' || c = '\x0b'

/-- Model of `detail::trim`: remove leading and trailing whitespace. -/
def trim (s : Str) : Str :=
  ((s.dropWhile isWs).reverse.dropWhile isWs).reverse

/-- Model of `detail::is_all_whitespace`. -/
def is_all_whitespace (s : Str) : Bool :=
  s.all isWs

/-- Model of C-locale `tolower` on the characters that can occur here:
the 26 ASCII uppercase letters map to their lowercase forms, everything
else is returned unchanged. -/
def c_tolower (c : Char) : Char :=
  if c = 'A' then 'a' else if c = 'B' then 'b' else if c = 'C' then 'c'
  else if c = 'D' then 'd' else if c = 'E' then 'e' else if c = 'F' then 'f'
  else if c = 'G' then 'g' else if c = 'H' then 'h' else if c = 'I' then 'i'
  else if c = 'J' then 'j' else if c = 'K' then 'k' else if c = 'L' then 'l'
  else if c = 'M' then 'm' else if c = 'N' then 'n' else if c = 'O' then 'o'
  else if c = 'P' then 'p' else if c = 'Q' then 'q' else if c = 'R' then 'r'
  else if c = 'S' then 's' else if c = 'T' then 't' else if c = 'U' then 'u'
  else if c = 'V' then 'v' else if c = 'W' then 'w' else if c = 'X' then 'x'
  else if c = 'Y' then 'y' else if c = 'Z' then 'z' else c

/-- Model of `detail::convert<bool>::decode`: lower-case the input and compare
against `"false"`, `"0"` and the empty string; everything else is `true`. -/
def bool_decode (s : Str) : Bool :=
  let t := s.map c_tolower
  !(t = "false".data || t = "0".data || t = [])

/-- Model of `detail::convert<bool>::encode`. -/
def bool_encode (b : Bool) : Str :=
  if b then "true".data else "false".data

/-- Error taxonomy of the converters: `std::invalid_argument` for
decode/format errors, `std::out_of_range` for range errors. -/
inductive ConvErr where
  | invalid_argument
  | out_of_range
deriving DecidableEq

/-- Result of a C `strtoll`/`strtoull` call: returned value, number of
characters consumed (`end_ptr - str`), and whether `errno` was set
to `ERANGE`. -/
structure CParse where
  val : Int
  consumed : Nat
  erange : Bool
deriving DecidableEq

def LLONG_MAX : Int := 2 ^ 63 - 1

def LLONG_MIN : Int := -(2 ^ 63)

def ULLONG_MAX : Int := 2 ^ 64 - 1

/-- Numeric value of a base-10 digit string. -/
def digitsToNat (ds : Str) : Nat :=
  ds.foldl (fun a c => a * 10 + (c.toNat - 48)) 0

/-- Model of `std::strtoll(str, &end_ptr, 10)` per the C standard: skip
leading whitespace, then an optional sign, then a maximal digit run; if no
digits were found nothing is consumed and 0 is returned; on overflow the
value is clamped to `LLONG_MAX`/`LLONG_MIN` and `ERANGE` is reported. -/
def strtollM (s : Str) : CParse :=
  let ws := s.takeWhile isWs
  let r1 := s.drop ws.length
  let signLen : Nat := if r1.head? = some '-' ∨ r1.head? = some '+' then 1 else 0
  let neg : Bool := r1.head? = some '-'
  let ds := (r1.drop signLen).takeWhile Char.isDigit
  if ds = [] then ⟨0, 0, false⟩
  else
    let m : Int := (digitsToNat ds : Int)
    let v : Int := if neg then -m else m
    let n := ws.length + signLen + ds.length
    if v > LLONG_MAX then ⟨LLONG_MAX, n, true⟩
    else if v < LLONG_MIN then ⟨LLONG_MIN, n, true⟩
    else ⟨v, n, false⟩

/-- Model of `std::strtoull(str, &end_ptr, 10)` per the C standard: as
`strtoll`, but the magnitude is checked against `ULLONG_MAX` and a leading
minus sign negates the value modulo 2^64 (without `ERANGE`). -/
def strtoullM (s : Str) : CParse :=
  let ws := s.takeWhile isWs
  let r1 := s.drop ws.length
  let signLen : Nat := if r1.head? = some '-' ∨ r1.head? = some '+' then 1 else 0
  let neg : Bool := r1.head? = some '-'
  let ds := (r1.drop signLen).takeWhile Char.isDigit
  if ds = [] then ⟨0, 0, false⟩
  else
    let m : Int := (digitsToNat ds : Int)
    let n := ws.length + signLen + ds.length
    if m > ULLONG_MAX then ⟨ULLONG_MAX, n, true⟩
    else ⟨if neg then (2 ^ 64 - m) % 2 ^ 64 else m, n, false⟩

/-- Characterisation of an integral target type `T`:
signedness and representable range (`numeric_limits<T>::min/max`). -/
structure IntSpec where
  signed : Bool
  min : Int
  max : Int

/-- 32-bit signed integer target type. -/
def int32Spec : IntSpec := ⟨true, -(2 ^ 31), 2 ^ 31 - 1⟩

/-- 32-bit unsigned integer target type. -/
def uint32Spec : IntSpec := ⟨false, 0, 2 ^ 32 - 1⟩

/-- Character a C string pointer reads at offset `i`: past the end of the
character data this is the NUL terminator. -/
def cstrCharAt (s : Str) (i : Nat) : Char :=
  (s.drop i).headD (Char.ofNat 0)

/-- Model of `detail::convert<T, integral>::decode` for a target type
described by `sp`: empty input is rejected; the signed branch uses
`strtoll` and checks `ERANGE` and the bounds of `T`; the unsigned branch
first rejects a leading `'-'`, then uses `strtoull` and checks `ERANGE`
and the upper bound of `T`; finally incomplete conversions
(`end_ptr == str` or `*end_ptr != '\0'`) are rejected. -/
def integral_decode (sp : IntSpec) (s : Str) : Except ConvErr Int :=
  if s = [] then .error .invalid_argument
  else if sp.signed then
    let r := strtollM s
    if r.erange = true ∨ r.val < sp.min ∨ r.val > sp.max then .error .out_of_range
    else if r.consumed = 0 ∨ cstrCharAt s r.consumed ≠ Char.ofNat 0 then .error .invalid_argument
    else .ok r.val
  else
    if s.head? = some '-' then .error .out_of_range
    else
      let r := strtoullM s
      if r.erange = true ∨ r.val > sp.max then .error .out_of_range
      else if r.consumed = 0 ∨ cstrCharAt s r.consumed ≠ Char.ofNat 0 then .error .invalid_argument
      else .ok r.val

instance {ε α : Type} [DecidableEq ε] [DecidableEq α] : DecidableEq (Except ε α)
  | .ok a, .ok b => decidable_of_iff (a = b) (by simp)
  | .ok _, .error _ => .isFalse (by simp)
  | .error _, .ok _ => .isFalse (by simp)
  | .error a, .error b => decidable_of_iff (a = b) (by simp)

/-- Model of reading all lines of a string with `std::getline` on `'\n'`:
every `'\n'` ends a line, and a final fragment without a terminating
newline still counts as a line; an empty input yields no lines. -/
def linesOf : Str → List Str
  | [] => []
  | c :: cs =>
    if c = '\n' then [] :: linesOf cs
    else
      match linesOf cs with
      | [] => [[c]]
      | l :: ls => (c :: l) :: ls

/-- Marker coercion performed by `comment::format_comment_line`:
only `';'` and `'#'` are supported, everything else degrades to `';'`. -/
def coerceMarker (symbol : Char) : Char :=
  if symbol = '#' then '#' else ';'

/-- Model of `comment::format_comment_line`: trim the line; an empty result
becomes the bare marker; a line not already starting with the (coerced)
marker gets the marker and a single space prepended. -/
def format_comment_line (c : Str) (symbol : Char) : Str :=
  let t := trim c
  let p := coerceMarker symbol
  if t = [] then [p]
  else if t.head? ≠ some p then p :: ' ' :: t
  else t

/-- Model of `comment::add_comments_from_string`: split the input into
lines, skip all-whitespace lines, format the rest. -/
def add_comments_from_string (str : Str) (symbol : Char) : List Str :=
  (linesOf str).filterMap fun l =>
    if is_all_whitespace l then none else some (format_comment_line l symbol)

/-- Model of the `comment` class state: `none` is the unallocated
(`nullptr`) container, `some ls` an allocated vector with lines `ls`. -/
abbrev Comment := Option (List Str)

/-- Model of `comment::view` (and of `to_vector`): the stored lines, with
the unallocated state reading as no lines. -/
def commentView (c : Comment) : List Str :=
  c.getD []

/-- Model of `comment::empty`. -/
def commentIsEmpty (c : Comment) : Bool :=
  (commentView c).isEmpty

/-- Model of `comment::add(str, symbol)`: an all-whitespace input returns
immediately; otherwise the container is allocated on demand and the
formatted lines are appended. -/
def comment_add (c : Comment) (str : Str) (symbol : Char) : Comment :=
  if is_all_whitespace str then c
  else some (c.getD [] ++ add_comments_from_string str symbol)

/-- Model of `comment::set(str, symbol)`: a non-all-whitespace input
replaces the stored lines wholesale; an all-whitespace input resets the
container to the unallocated state. -/
def comment_set (c : Comment) (str : Str) (symbol : Char) : Comment :=
  if is_all_whitespace str = false then some (add_comments_from_string str symbol)
  else none

/-- Spec-side description of a stored comment line (C5): the trimmed text
prefixed with exactly one marker character and a single space, unless the
trimmed text already begins with that marker. -/
def spec_marked_line (m : Char) (t : Str) : Str :=
  if t.head? = some m then t else m :: ' ' :: t

/-- Model of `ini::field`: the stored text value and the attached comment. -/
structure Field where
  value : Str
  comments : Comment
deriving DecidableEq

/-- Default-constructed field (empty value, no comment). -/
def defaultField : Field := ⟨[], none⟩

/-- Model of `ini::basic_section<>` (default, case-sensitive policy): the
`unordered_map` is an association list whose order stands for the map's
iteration order, plus the section comment. -/
structure Section where
  data : List (Str × Field)
  comments : Comment
deriving DecidableEq

/-- Default-constructed section. -/
def emptySection : Section := ⟨[], none⟩

/-- Lookup in an association list under the default (case-sensitive)
equality, i.e. `std::equal_to<std::string>`. -/
def assocFind {α : Type} (l : List (Str × α)) (k : Str) : Option α :=
  match l with
  | [] => none
  | (k', v) :: t => if k' = k then some v else assocFind t k

/-- `unordered_map::operator[]`-style update: apply `f` to the entry at `k`,
inserting `f d` at the end of the iteration order if `k` is absent. -/
def updateAssoc {α : Type} (l : List (Str × α)) (k : Str) (f : α → α) (d : α) :
    List (Str × α) :=
  match l with
  | [] => [(k, f d)]
  | (k', v) :: t => if k' = k then (k', f v) :: t else (k', v) :: updateAssoc t k f d

/-- Model of `basic_section::contains`: trim the key, existence check only. -/
def section_contains (s : Section) (key : Str) : Bool :=
  (assocFind s.data (trim key)).isSome

/-- Model of `basic_section::at`: trim the key, return the field or raise
`std::out_of_range`. -/
def section_at (s : Section) (key : Str) : Except ConvErr Field :=
  match assocFind s.data (trim key) with
  | some f => .ok f
  | none => .error .out_of_range

/-- Model of `basic_section::get`: trim the key, return a copy of the
stored field or the supplied default; never raises, never inserts. -/
def section_get (s : Section) (key : Str) (default_value : Field) : Field :=
  match assocFind s.data (trim key) with
  | some f => f
  | none => default_value

/-- Model of `ini::basic_inifile<>` (default policy). -/
structure Inifile where
  data : List (Str × Section)
deriving DecidableEq

/-- Model of `basic_inifile::contains(sec)`. -/
def inifile_contains (d : Inifile) (sec : Str) : Bool :=
  (assocFind d.data (trim sec)).isSome

/-- Model of `basic_inifile::at`. -/
def inifile_at (d : Inifile) (sec : Str) : Except ConvErr Section :=
  match assocFind d.data (trim sec) with
  | some s => .ok s
  | none => .error .out_of_range

/-- Model of `basic_inifile::get(sec, key, default)`: find the section; if
it exists and contains the key, return that field via `at` (which cannot
fail here, the error arm is unreachable), otherwise the default. -/
def inifile_get (d : Inifile) (sec key : Str) (default_value : Field) : Field :=
  match assocFind d.data (trim sec) with
  | some s =>
      if section_contains s key then
        match section_at s key with
        | .ok f => f
        | .error _ => default_value
      else default_value
  | none => default_value

/-- Model of `detail::case_insensitive_equal`: equal sizes and pointwise
equality after `tolower`. -/
def ciEqual (a b : Str) : Bool :=
  a.length = b.length && (List.zip a b).all fun p => c_tolower p.1 = c_tolower p.2

/-- Lookup under the case-insensitive policy (the `case_insensitive_hash`
is consistent with it: equal-under-`ciEqual` keys lower-case to the same
string and therefore hash alike). -/
def ciFind (l : List (Str × Section)) (k : Str) : Option Section :=
  match l with
  | [] => none
  | (k', v) :: t => if ciEqual k' k then some v else ciFind t k

/-- Model of `case_insensitive_inifile::contains`. -/
def ci_contains (d : List (Str × Section)) (sec : Str) : Bool :=
  (ciFind d (trim sec)).isSome

/-- Model of `case_insensitive_inifile::at`. -/
def ci_at (d : List (Str × Section)) (sec : Str) : Except ConvErr Section :=
  match ciFind d (trim sec) with
  | some s => .ok s
  | none => .error .out_of_range

/-- Model of `case_insensitive_inifile::operator[]`: the resolved section
together with the updated document; an absent name is inserted under the
exact (trimmed) spelling passed in, an existing entry keeps its stored
spelling. -/
def ci_idx (d : List (Str × Section)) (sec : Str) : Section × List (Str × Section) :=
  match ciFind d (trim sec) with
  | some s => (s, d)
  | none => (emptySection, d ++ [(trim sec, emptySection)])

/-- Model of `data_[sec]` used by `read` on a section header: ensure the
(trimmed) section exists, inserting a default one if absent. -/
def docEnsure (d : List (Str × Section)) (sec : Str) : List (Str × Section) :=
  updateAssoc d (trim sec) id emptySection

/-- Model of `data_[sec].set_comment(...)` in `read`: replace the section's
comment wholesale. -/
def docSetSecComment (d : List (Str × Section)) (sec : Str) (c : Comment) :
    List (Str × Section) :=
  updateAssoc d (trim sec) (fun s => { s with comments := c }) emptySection

/-- Model of `data_[sec][key] = value` in `read` (and of
`basic_inifile::set`): ensure section and key exist, overwrite the field's
text value, keep its comment. -/
def docSetKV (d : List (Str × Section)) (sec key v : Str) : List (Str × Section) :=
  updateAssoc d (trim sec)
    (fun s => { s with
      data := updateAssoc s.data (trim key) (fun f => { f with value := v }) defaultField })
    emptySection

/-- Model of `data_[sec][key].set_comment(...)` in `read`: replace the
field's comment wholesale. -/
def docSetFieldComment (d : List (Str × Section)) (sec key : Str) (c : Comment) :
    List (Str × Section) :=
  updateAssoc d (trim sec)
    (fun s => { s with
      data := updateAssoc s.data (trim key) (fun f => { f with comments := c }) defaultField })
    emptySection

/-- Index of the first occurrence of a character (`std::string::find`). -/
def findCharIdx (c : Char) : Str → Option Nat
  | [] => none
  | a :: t => if a = c then some 0 else (findCharIdx c t).map (fun i => i + 1)

/-- Parser state of `basic_inifile::read`: the document built so far, the
current section name, and the pending comment accumulator. -/
structure PState where
  doc : List (Str × Section)
  current : Str
  pending : Comment
deriving DecidableEq

/-- Model of one loop iteration of `basic_inifile::read`: trim the line;
skip empty lines; accumulate `';'`/`'#'` lines into the pending comment;
on `[...]` extract and trim the inner name — a non-empty name ensures the
section, attaches a non-empty pending comment and becomes the current
section, an empty name just resets the current section to the empty
string; otherwise split at the first `'='` into trimmed key and value and
store them under the current section, attaching a non-empty pending
comment to the field; lines without `'='` are ignored. -/
def readLine (st : PState) (raw : Str) : PState :=
  if trim raw = [] then st
  else if (trim raw).head? = some ';' ∨ (trim raw).head? = some '#' then
    { st with pending := comment_add st.pending (trim raw) ((trim raw).headD ';') }
  else if (trim raw).head? = some '[' ∧ (trim raw).getLast? = some ']' then
    if trim (((trim raw).drop 1).dropLast) ≠ [] then
      if commentIsEmpty st.pending then
        { doc := docEnsure st.doc (trim (((trim raw).drop 1).dropLast)),
          current := trim (((trim raw).drop 1).dropLast), pending := st.pending }
      else
        { doc := docSetSecComment (docEnsure st.doc (trim (((trim raw).drop 1).dropLast)))
            (trim (((trim raw).drop 1).dropLast)) st.pending,
          current := trim (((trim raw).drop 1).dropLast), pending := none }
    else
      { st with current := [] }
  else
    match findCharIdx '=' (trim raw) with
    | some pos =>
        if commentIsEmpty st.pending then
          { doc := docSetKV st.doc st.current (trim ((trim raw).take pos))
              (trim ((trim raw).drop (pos + 1))),
            current := st.current, pending := st.pending }
        else
          { doc := docSetFieldComment
              (docSetKV st.doc st.current (trim ((trim raw).take pos))
                (trim ((trim raw).drop (pos + 1))))
              st.current (trim ((trim raw).take pos)) st.pending,
            current := st.current, pending := none }
    | none => st

/-- Model of `basic_inifile::read`: clear the document and fold `readLine`
over the input lines. -/
def readLines (ls : List Str) : PState :=
  ls.foldl readLine ⟨[], [], none⟩

/-- Model of `basic_inifile::from_string`. -/
def from_string (s : Str) : Inifile :=
  ⟨(readLines (linesOf s)).doc⟩

/-- Model of `basic_inifile::write_comment`: the stored comment lines, each
followed by a newline (the emptiness test in the source is redundant). -/
def commentChunk (c : Comment) : Str :=
  ((commentView c).map (fun l => l ++ ['\n'])).flatten

/-- Text emitted by `write` for one `key=value` pair: its comment lines
then `key=value` and a newline. -/
def fieldChunk (k : Str) (f : Field) : Str :=
  commentChunk f.comments ++ k ++ '=' :: (f.value ++ ['\n'])

/-- Text emitted by `write` for all pairs of a section, in iteration
order. -/
def bodyChunk (s : Section) : Str :=
  (s.data.map (fun p => fieldChunk p.1 p.2)).flatten

/-- Text emitted by `write` for a named section: its comment lines, the
`[name]` header line, then its pairs. -/
def sectionChunk (name : Str) (s : Section) : Str :=
  commentChunk s.comments ++ '[' :: (name ++ ']' :: '\n' :: bodyChunk s)

/-- One step of the serializer loop of `basic_inifile::write`: skip the
empty-name entry; otherwise emit a blank separator line unless this is the
first emitted section, then the section text; the flag records that
something has been emitted. -/
def writeStep (acc : Str × Bool) (p : Str × Section) : Str × Bool :=
  if p.1 = [] then acc
  else (acc.1 ++ (if acc.2 then [] else ['\n']) ++ sectionChunk p.1 p.2, false)

/-- Model of `basic_inifile::write` (and `to_string`): first the
empty-name section's pairs without a header (the first-section flag is
cleared whenever that entry exists), then every named section via
`writeStep` in iteration order. -/
def write (d : Inifile) : Str :=
  let e := assocFind d.data []
  let part1 : Str := match e with
    | some s => bodyChunk s
    | none => []
  (d.data.foldl writeStep (part1, e.isNone)).1

/-- Model of `basic_inifile::to_string`. -/
def to_string (d : Inifile) : Str :=
  write d

/-- Spec-side description of the serializer's output as chunks: the
empty-name section's pairs (if that section exists), then one chunk per
named section in iteration order. -/
def chunksOf (d : Inifile) : List Str :=
  (match assocFind d.data [] with
    | some s => [bodyChunk s]
    | none => []) ++
  (d.data.filter (fun p => p.1 ≠ [])).map (fun p => sectionChunk p.1 p.2)

/-- Chunks joined with one blank separator line before every chunk after
the first — the spec's description of the blank-line policy. -/
def intercalateNL : List Str → Str
  | [] => []
  | c :: t => c ++ (t.map (fun b => '\n' :: b)).flatten

/-- Spec-side description of `write` (C7). -/
def writeSpec (d : Inifile) : Str :=
  intercalateNL (chunksOf d)

/-- Named-section chunks, each preceded by its blank separator line. -/
def nlBlocks (l : List (Str × Section)) : Str :=
  ((l.filter (fun p => p.1 ≠ [])).map (fun p => '\n' :: sectionChunk p.1 p.2)).flatten

/-- Join lines, terminating each with a newline. -/
def unlines (ls : List Str) : Str :=
  (ls.map (fun l => l ++ ['\n'])).flatten

/-- Output of `write` for one pair, as a list of lines. -/
def fieldLines (k : Str) (f : Field) : List Str :=
  commentView f.comments ++ [k ++ '=' :: f.value]

/-- Output of `write` for a section body, as a list of lines. -/
def bodyLines (s : Section) : List Str :=
  (s.data.map (fun p => fieldLines p.1 p.2)).flatten

/-- Output of `write` for a named section, as a list of lines. -/
def secLines (name : Str) (s : Section) : List Str :=
  commentView s.comments ++ ('[' :: (name ++ [']'])) :: bodyLines s

/-- The serializer's chunks at line granularity. -/
def lineChunksOf (d : Inifile) : List (List Str) :=
  (match assocFind d.data [] with
    | some s => [bodyLines s]
    | none => []) ++
  (d.data.filter (fun p => p.1 ≠ [])).map (fun p => secLines p.1 p.2)

/-- All output lines of `write`, blank separator lines included. -/
def allLines (d : Inifile) : List Str :=
  match lineChunksOf d with
  | [] => []
  | c :: t => c ++ (t.map (fun b => [] :: b)).flatten

/-- A comment line as the comment API stores it: non-empty, trimmed,
starting with a marker, and newline-free. -/
def GoodCommentLine (l : Str) : Prop :=
  l ≠ [] ∧ trim l = l ∧ (l.head? = some ';' ∨ l.head? = some '#') ∧ '\n' ∉ l

/-- Every stored line of the comment is well formed. -/
def GoodComment (c : Comment) : Prop :=
  ∀ l ∈ commentView c, GoodCommentLine l

instance (l : Str) : Decidable (GoodCommentLine l) := by
  unfold GoodCommentLine; infer_instance

instance (c : Comment) : Decidable (GoodComment c) := by
  unfold GoodComment; infer_instance

/-- Serialization-safe key/field pair: trimmed newline-free key without
`'='` that does not start with a comment marker, no bracket-pair collision
of the emitted `key=value` line with a section header, and a trimmed,
newline-free value. -/
def GoodKV (k : Str) (f : Field) : Prop :=
  trim k = k ∧ '\n' ∉ k ∧ '=' ∉ k ∧
  (∀ c, k.head? = some c → c ≠ ';' ∧ c ≠ '#') ∧
  ¬((k ++ '=' :: f.value).head? = some '[' ∧
    (k ++ '=' :: f.value).getLast? = some ']') ∧
  trim f.value = f.value ∧ '\n' ∉ f.value ∧ GoodComment f.comments

instance (k : Str) (f : Field) : Decidable (GoodKV k f) := by
  unfold GoodKV; infer_instance

/-- Serialization-safe section: trimmed newline-free name, no duplicate
keys, well-formed pairs and comment, and no section comment on the
empty-name pseudo-section (the serializer drops that one). -/
def GoodSection (name : Str) (s : Section) : Prop :=
  trim name = name ∧ '\n' ∉ name ∧
  (s.data.map Prod.fst).Nodup ∧
  (∀ p ∈ s.data, GoodKV p.1 p.2) ∧
  GoodComment s.comments ∧
  (name = [] → s.comments = none)

instance (name : Str) (s : Section) : Decidable (GoodSection name s) := by
  unfold GoodSection; infer_instance

/-- Serialization-safe document: unique section names, all sections well
formed. -/
def GoodDoc (d : Inifile) : Prop :=
  (d.data.map Prod.fst).Nodup ∧ ∀ p ∈ d.data, GoodSection p.1 p.2

instance (d : Inifile) : Decidable (GoodDoc d) := by
  unfold GoodDoc; infer_instance

/-- Observation: a section's comment lines (none when absent). -/
def sec_comment_lines (d : Inifile) (name : Str) : List Str :=
  match assocFind d.data name with
  | some s => commentView s.comments
  | none => []

/-- Observation: a key's stored text value. -/
def field_value? (d : Inifile) (name key : Str) : Option Str :=
  match assocFind d.data name with
  | some s => (assocFind s.data key).map (fun f => f.value)
  | none => none

/-- Observation: a key's comment lines (none when absent). -/
def field_comment_lines (d : Inifile) (name key : Str) : List Str :=
  match assocFind d.data name with
  | some s =>
      match assocFind s.data key with
      | some f => commentView f.comments
      | none => []
  | none => []

/-- Comment with an allocated-but-empty container collapsed to the
unallocated state, as re-parsing produces it. -/
def normComment (c : Comment) : Comment :=
  if commentView c = [] then none else some (commentView c)

/-- Field as re-parsing reproduces it. -/
def normField (f : Field) : Field :=
  ⟨f.value, normComment f.comments⟩

/-- Section as re-parsing reproduces it. -/
def normSection (s : Section) : Section :=
  ⟨s.data.map (fun p => (p.1, normField p.2)), normComment s.comments⟩

/-- The document a round-trip reproduces: the empty-name section first
(dropped entirely when it has no pairs), then the named sections in
iteration order. -/
def normalizeDoc (d : Inifile) : List (Str × Section) :=
  (match assocFind d.data [] with
    | some s => if s.data = [] then [] else [([], normSection s)]
    | none => []) ++
  (d.data.filter (fun p => p.1 ≠ [])).map (fun p => (p.1, normSection p.2))

/-- Model of `basic_inifile::set(sec, key, value)` with a string-typed
value (`convert<std::string>::encode` is the identity): trim section and
key, store the value text unchanged. -/
def inifile_set (d : Inifile) (sec key v : Str) : Inifile :=
  ⟨docSetKV d.data sec key v⟩


theorem digit_not_ws (c : Char) (h : c.isDigit = true) : isWs c = false := by
  have h0 : c ≠ ' ' := by intro hc; subst hc; exact absurd h (by decide)
  have h1 : c ≠ '\t' := by intro hc; subst hc; exact absurd h (by decide)
  have h2 : c ≠ '\n' := by intro hc; subst hc; exact absurd h (by decide)
  have h3 : c ≠ '\r' := by intro hc; subst hc; exact absurd h (by decide)
  have h4 : c ≠ '\x0c' := by intro hc; subst hc; exact absurd h (by decide)
  have h5 : c ≠ '\x0b' := by intro hc; subst hc; exact absurd h (by decide)
  simp [isWs, h0, h1, h2, h3, h4, h5]

theorem digit_ne_dash (c : Char) (h : c.isDigit = true) : c ≠ '-' := by
  intro hc; subst hc; exact absurd h (by decide)

theorem digit_ne_plus (c : Char) (h : c.isDigit = true) : c ≠ '+' := by
  intro hc; subst hc; exact absurd h (by decide)

theorem takeWhile_isDigit_append (ds : Str) (j : Char) (rest : Str)
    (h1 : ∀ c ∈ ds, c.isDigit = true) (h2 : j.isDigit = false) :
    (ds ++ j :: rest).takeWhile Char.isDigit = ds := by
  induction ds with
  | nil => simp [List.takeWhile_cons, h2]
  | cons a t ih =>
      have ha : a.isDigit = true := h1 a (by simp)
      simp only [List.cons_append, List.takeWhile_cons, ha, if_true]
      rw [ih (fun c hc => h1 c (by simp [hc]))]

theorem strtollM_digits (ds : Str) (j : Char) (rest : Str)
    (h1 : ds ≠ []) (h2 : ∀ c ∈ ds, c.isDigit = true) (h3 : j.isDigit = false)
    (h4 : (digitsToNat ds : Int) ≤ LLONG_MAX) :
    strtollM (ds ++ j :: rest) = ⟨(digitsToNat ds : Int), ds.length, false⟩ := by
  obtain ⟨d, dt, rfl⟩ : ∃ d dt, ds = d :: dt := by
    cases ds with
    | nil => exact absurd rfl h1
    | cons d dt => exact ⟨d, dt, rfl⟩
  have hd : d.isDigit = true := h2 d (by simp)
  have hws : isWs d = false := digit_not_ws d hd
  have hdash : d ≠ '-' := digit_ne_dash d hd
  have hplus : d ≠ '+' := digit_ne_plus d hd
  have htk2 : (dt ++ j :: rest).takeWhile Char.isDigit = dt :=
    takeWhile_isDigit_append _ _ _ (fun c hc => h2 c (by simp [hc])) h3
  have hm : ¬ ((digitsToNat (d :: dt) : Int) > LLONG_MAX) := not_lt.mpr h4
  have hm2 : ¬ ((digitsToNat (d :: dt) : Int) < LLONG_MIN) := by
    have hnn : (0 : Int) ≤ (digitsToNat (d :: dt) : Int) := Int.ofNat_nonneg _
    unfold LLONG_MIN
    omega
  unfold strtollM
  simp [List.takeWhile_cons, hws, hdash, hplus, hd, htk2, hm, hm2]

theorem strtoullM_digits (ds : Str) (j : Char) (rest : Str)
    (h1 : ds ≠ []) (h2 : ∀ c ∈ ds, c.isDigit = true) (h3 : j.isDigit = false)
    (h4 : (digitsToNat ds : Int) ≤ ULLONG_MAX) :
    strtoullM (ds ++ j :: rest) = ⟨(digitsToNat ds : Int), ds.length, false⟩ := by
  obtain ⟨d, dt, rfl⟩ : ∃ d dt, ds = d :: dt := by
    cases ds with
    | nil => exact absurd rfl h1
    | cons d dt => exact ⟨d, dt, rfl⟩
  have hd : d.isDigit = true := h2 d (by simp)
  have hws : isWs d = false := digit_not_ws d hd
  have hdash : d ≠ '-' := digit_ne_dash d hd
  have hplus : d ≠ '+' := digit_ne_plus d hd
  have htk2 : (dt ++ j :: rest).takeWhile Char.isDigit = dt :=
    takeWhile_isDigit_append _ _ _ (fun c hc => h2 c (by simp [hc])) h3
  have hm : ¬ ((digitsToNat (d :: dt) : Int) > ULLONG_MAX) := not_lt.mpr h4
  unfold strtoullM
  simp [List.takeWhile_cons, hws, hdash, hplus, hd, htk2, hm]

theorem takeWhile_isDigit_all (ds : Str) (h : ∀ c ∈ ds, c.isDigit = true) :
    ds.takeWhile Char.isDigit = ds := by
  induction ds with
  | nil => rfl
  | cons a t ih =>
      have ha : a.isDigit = true := h a (by simp)
      simp only [List.takeWhile_cons, ha, if_true]
      rw [ih (fun c hc => h c (by simp [hc]))]

theorem strtollM_numeric (sgnL ds : Str)
    (hs : sgnL = [] ∨ sgnL = ['-'] ∨ sgnL = ['+'])
    (h1 : ds ≠ []) (h2 : ∀ c ∈ ds, c.isDigit = true) :
    strtollM (sgnL ++ ds) =
      if (if sgnL = ['-'] then -(digitsToNat ds : Int) else (digitsToNat ds : Int)) >
          LLONG_MAX then
        ⟨LLONG_MAX, sgnL.length + ds.length, true⟩
      else if (if sgnL = ['-'] then -(digitsToNat ds : Int) else (digitsToNat ds : Int)) <
          LLONG_MIN then
        ⟨LLONG_MIN, sgnL.length + ds.length, true⟩
      else
        ⟨if sgnL = ['-'] then -(digitsToNat ds : Int) else (digitsToNat ds : Int),
          sgnL.length + ds.length, false⟩ := by
  obtain ⟨d, dt, rfl⟩ : ∃ d dt, ds = d :: dt := by
    cases ds with
    | nil => exact absurd rfl h1
    | cons d dt => exact ⟨d, dt, rfl⟩
  have hd : d.isDigit = true := h2 d (by simp)
  have hws : isWs d = false := digit_not_ws d hd
  have hdash : d ≠ '-' := digit_ne_dash d hd
  have hplus : d ≠ '+' := digit_ne_plus d hd
  have htka : (d :: dt).takeWhile Char.isDigit = d :: dt :=
    takeWhile_isDigit_all _ h2
  have hwsm : isWs '-' = false := by decide
  have hwsp : isWs '+' = false := by decide
  rcases hs with rfl | rfl | rfl
  · unfold strtollM
    simp [List.takeWhile_cons, hws, hdash, hplus, hd, htka]
  · unfold strtollM
    simp [List.takeWhile_cons, hwsm, htka]
  · unfold strtollM
    simp [List.takeWhile_cons, hwsp, htka]

theorem strtoullM_numeric (sgnL ds : Str)
    (hs : sgnL = [] ∨ sgnL = ['+'])
    (h1 : ds ≠ []) (h2 : ∀ c ∈ ds, c.isDigit = true) :
    strtoullM (sgnL ++ ds) =
      if (digitsToNat ds : Int) > ULLONG_MAX then
        ⟨ULLONG_MAX, sgnL.length + ds.length, true⟩
      else
        ⟨(digitsToNat ds : Int), sgnL.length + ds.length, false⟩ := by
  obtain ⟨d, dt, rfl⟩ : ∃ d dt, ds = d :: dt := by
    cases ds with
    | nil => exact absurd rfl h1
    | cons d dt => exact ⟨d, dt, rfl⟩
  have hd : d.isDigit = true := h2 d (by simp)
  have hws : isWs d = false := digit_not_ws d hd
  have hdash : d ≠ '-' := digit_ne_dash d hd
  have hplus : d ≠ '+' := digit_ne_plus d hd
  have htka : (d :: dt).takeWhile Char.isDigit = d :: dt :=
    takeWhile_isDigit_all _ h2
  have hwsp : isWs '+' = false := by decide
  rcases hs with rfl | rfl
  · unfold strtoullM
    simp [List.takeWhile_cons, hws, hdash, hplus, hd, htka]
  · unfold strtoullM
    simp [List.takeWhile_cons, hwsp, htka]

/-- C4: the boolean converter encodes `true`/`false` as `"true"`/`"false"`;
decoding is case-insensitive (it depends only on the lower-cased input) and
yields `false` exactly for the inputs that lower-case to `"false"` or `"0"`
or are empty, and `true` for every other input; decode is total (a Lean
function), so it never fails. -/
theorem C4_bool_converter :
    bool_encode true = "true".data ∧ bool_encode false = "false".data ∧
    (∀ s t : Str, s.map c_tolower = t.map c_tolower → bool_decode s = bool_decode t) ∧
    (∀ s : Str, bool_decode s = false ↔
      (s.map c_tolower = "false".data ∨ s.map c_tolower = "0".data ∨ s = [])) := by
  refine ⟨rfl, rfl, ?_, ?_⟩
  · intro s t h
    simp only [bool_decode, h]
  · intro s
    simp [bool_decode]
    tauto

/-- C4 witness: the case-insensitivity conjunct applied at a concrete input. -/
theorem C4_bool_converter_witness :
    bool_decode "FaLsE".data = bool_decode "false".data :=
  C4_bool_converter.2.2.1 "FaLsE".data "false".data (by decide)

/-- C3 (as amended): for every integral target type, decoding the empty
string is a decode/format error; for every integral target type, decoding
any numeric string (an optional `'-'`/`'+'` sign followed by digits) whose
value lies outside the type's representable range is a range error — in
particular decoding `"99999999999999999999"` as a 32-bit integer is a range
error; and a string made of an in-range digit run followed by trailing
non-numeric characters is a decode/format error — the amendment is that the
in-range proviso is needed because the range check runs before the
complete-conversion check (see `C3_counterexample`). -/
theorem C3_integral_decode_errors :
    (∀ sp : IntSpec, integral_decode sp [] = .error .invalid_argument) ∧
    (∀ (sp : IntSpec) (sgnL ds : Str),
      sp.min ≤ 0 →
      (sgnL = [] ∨ sgnL = ['-'] ∨ sgnL = ['+']) →
      ds ≠ [] → (∀ c ∈ ds, c.isDigit = true) →
      ((if sgnL = ['-'] then -(digitsToNat ds : Int) else (digitsToNat ds : Int)) < sp.min ∨
       (if sgnL = ['-'] then -(digitsToNat ds : Int) else (digitsToNat ds : Int)) > sp.max) →
      integral_decode sp (sgnL ++ ds) = .error .out_of_range) ∧
    integral_decode int32Spec "99999999999999999999".data = .error .out_of_range ∧
    (∀ (sp : IntSpec) (ds : Str) (j : Char) (rest : Str),
      ds ≠ [] → (∀ c ∈ ds, c.isDigit = true) → j.isDigit = false → j ≠ Char.ofNat 0 →
      (digitsToNat ds : Int) ≤ sp.max → sp.min ≤ 0 →
      sp.max ≤ (if sp.signed = true then LLONG_MAX else ULLONG_MAX) →
      integral_decode sp (ds ++ j :: rest) = .error .invalid_argument) := by
  refine ⟨?_, ?_, by decide, ?_⟩
  · intro sp
    simp [integral_decode]
  · intro sp sgnL ds hmin hs h1 h2 hout
    have hne : sgnL ++ ds ≠ [] := by
      intro hx
      exact h1 (List.append_eq_nil.mp hx).2
    cases hsig : sp.signed with
    | true =>
        have hr := strtollM_numeric sgnL ds hs h1 h2
        unfold integral_decode
        rw [if_neg hne, if_pos hsig, hr]
        set v : Int :=
          if sgnL = ['-'] then -(digitsToNat ds : Int) else (digitsToNat ds : Int) with hv
        by_cases hc1 : v > LLONG_MAX
        · rw [if_pos hc1, if_pos (Or.inl rfl)]
        · rw [if_neg hc1]
          by_cases hc2 : v < LLONG_MIN
          · rw [if_pos hc2, if_pos (Or.inl rfl)]
          · rw [if_neg hc2, if_pos (Or.inr hout)]
    | false =>
        rcases hs with rfl | rfl | rfl
        · rw [if_neg (show ¬ ([] : Str) = ['-'] by decide)] at hout
          have hnn : (0 : Int) ≤ (digitsToNat ds : Int) := Int.ofNat_nonneg _
          have hmax : (digitsToNat ds : Int) > sp.max := by
            rcases hout with h | h
            · omega
            · exact h
          have hr := strtoullM_numeric [] ds (Or.inl rfl) h1 h2
          have hnodash : (([] : Str) ++ ds).head? ≠ some '-' := by
            cases ds with
            | nil => exact absurd rfl h1
            | cons d dt =>
                have hd : d.isDigit = true := h2 d (by simp)
                simpa using digit_ne_dash d hd
          unfold integral_decode
          rw [if_neg hne, if_neg (by simp [hsig]), if_neg hnodash, hr]
          by_cases hcl : (digitsToNat ds : Int) > ULLONG_MAX
          · rw [if_pos hcl, if_pos (Or.inl rfl)]
          · rw [if_neg hcl, if_pos (Or.inr hmax)]
        · unfold integral_decode
          rw [if_neg hne, if_neg (by simp [hsig]),
            if_pos (show ((['-'] : Str) ++ ds).head? = some '-' from rfl)]
        · rw [if_neg (show ¬ (['+'] : Str) = ['-'] by decide)] at hout
          have hnn : (0 : Int) ≤ (digitsToNat ds : Int) := Int.ofNat_nonneg _
          have hmax : (digitsToNat ds : Int) > sp.max := by
            rcases hout with h | h
            · omega
            · exact h
          have hr := strtoullM_numeric ['+'] ds (Or.inr rfl) h1 h2
          have hnodash : ((['+'] : Str) ++ ds).head? ≠ some '-' := by
            intro hx
            exact absurd (Option.some.inj hx) (by decide)
          unfold integral_decode
          rw [if_neg hne, if_neg (by simp [hsig]), if_neg hnodash, hr]
          by_cases hcl : (digitsToNat ds : Int) > ULLONG_MAX
          · rw [if_pos hcl, if_pos (Or.inl rfl)]
          · rw [if_neg hcl, if_pos (Or.inr hmax)]
  · intro sp ds j rest h1 h2 h3 h4 h5 h6 h7
    have hne : ds ++ j :: rest ≠ [] := by
      cases ds <;> simp
    have hnn : (0 : Int) ≤ (digitsToNat ds : Int) := Int.ofNat_nonneg _
    have hjunk : cstrCharAt (ds ++ j :: rest) ds.length ≠ Char.ofNat 0 := by
      unfold cstrCharAt
      rw [List.drop_left]
      simpa using h4
    cases hsig : sp.signed with
    | true =>
        rw [hsig] at h7
        simp only [if_pos rfl] at h7
        have hlt : (digitsToNat ds : Int) ≤ LLONG_MAX := le_trans h5 h7
        have hr := strtollM_digits ds j rest h1 h2 h3 hlt
        unfold integral_decode
        rw [if_neg hne, if_pos hsig, hr]
        have hcond : ¬ (false = true ∨ (digitsToNat ds : Int) < sp.min ∨
            (digitsToNat ds : Int) > sp.max) := by
          push_neg
          exact ⟨by simp, le_trans h6 hnn, h5⟩
        rw [if_neg hcond, if_pos (Or.inr hjunk)]
    | false =>
        rw [hsig] at h7
        simp only [Bool.false_eq_true, if_neg, if_false] at h7
        have hlt : (digitsToNat ds : Int) ≤ ULLONG_MAX := le_trans h5 h7
        have hr := strtoullM_digits ds j rest h1 h2 h3 hlt
        have hnodash : (ds ++ j :: rest).head? ≠ some '-' := by
          obtain ⟨d, dt, rfl⟩ : ∃ d dt, ds = d :: dt := by
            cases ds with
            | nil => exact absurd rfl h1
            | cons d dt => exact ⟨d, dt, rfl⟩
          have hd : d.isDigit = true := h2 d (by simp)
          simpa using digit_ne_dash d hd
        unfold integral_decode
        rw [if_neg hne, if_neg (by simp [hsig]), if_neg hnodash, hr]
        have hcond : ¬ (false = true ∨ (digitsToNat ds : Int) > sp.max) := by
          push_neg
          exact ⟨by simp, h5⟩
        rw [if_neg hcond, if_pos (Or.inr hjunk)]

/-- C3 witness: the universal range-error conjunct applied below the
minimum of a signed type (`"-2147483649"` as a 32-bit integer) and above
the maximum of an unsigned type (`"4294967296"` as a 32-bit unsigned
integer), and the trailing-junk conjunct applied at a concrete input
(`"12a"` decoded as a 32-bit integer). -/
theorem C3_integral_decode_errors_witness :
    integral_decode int32Spec (['-'] ++ "2147483649".data) = .error .out_of_range ∧
    integral_decode uint32Spec ([] ++ "4294967296".data) = .error .out_of_range ∧
    integral_decode int32Spec (['1', '2'] ++ 'a' :: []) = .error .invalid_argument :=
  ⟨C3_integral_decode_errors.2.1 int32Spec ['-'] "2147483649".data (by decide) (by decide)
      (by decide) (by decide) (by decide),
   C3_integral_decode_errors.2.1 uint32Spec [] "4294967296".data (by decide) (by decide)
      (by decide) (by decide) (by decide),
   C3_integral_decode_errors.2.2.2 int32Spec ['1', '2'] 'a' [] (by decide) (by decide)
      (by decide) (by decide) (by decide) (by decide) (by decide)⟩

/-- C3 counterexample: the claim states that a string with trailing
non-numeric characters raises a decode/format error, but
`"2147483648abc"` decoded as a 32-bit integer raises the range error
instead, because the range check is performed before the
complete-conversion check. -/
theorem C3_counterexample :
    integral_decode int32Spec "2147483648abc".data = .error .out_of_range ∧
    ConvErr.out_of_range ≠ ConvErr.invalid_argument := by
  decide

/-- C10: for every unsigned integral target type, decoding any string whose
first character is `'-'` raises a range error, regardless of the rest of
the string (so including `"-0"`). -/
theorem C10_unsigned_leading_minus :
    ∀ (sp : IntSpec) (t : Str), sp.signed = false →
      integral_decode sp ('-' :: t) = .error .out_of_range := by
  intro sp t h
  unfold integral_decode
  rw [if_neg (by simp), if_neg (by simp [h]),
    if_pos (show ('-' :: t).head? = some '-' from rfl)]

/-- C10 witness: decoding `"-0"` as a 32-bit unsigned integer raises the
range error. -/
theorem C10_unsigned_leading_minus_witness :
    integral_decode uint32Spec ('-' :: ['0']) = .error .out_of_range :=
  C10_unsigned_leading_minus uint32Spec ['0'] rfl

theorem trim_eq_nil_iff (l : Str) : trim l = [] ↔ is_all_whitespace l = true := by
  unfold trim is_all_whitespace
  rw [List.reverse_eq_nil_iff, List.dropWhile_eq_nil_iff, List.all_eq_true]
  constructor
  · intro h x hx
    have hx' : x ∈ l.takeWhile isWs ++ l.dropWhile isWs := by
      rw [List.takeWhile_append_dropWhile]
      exact hx
    rcases List.mem_append.mp hx' with h1 | h1
    · exact List.mem_takeWhile_imp h1
    · exact h x (List.mem_reverse.mpr h1)
  · intro h x hx
    exact h x (List.dropWhile_sublist isWs |>.subset (List.mem_reverse.mp hx))

theorem format_comment_line_of_not_ws (l : Str) (symbol : Char)
    (h : is_all_whitespace l = false) :
    format_comment_line l symbol = spec_marked_line (coerceMarker symbol) (trim l) := by
  have ht : trim l ≠ [] := by
    rw [ne_eq, trim_eq_nil_iff, h]
    simp
  unfold format_comment_line spec_marked_line
  rw [if_neg ht]
  by_cases hh : (trim l).head? = some (coerceMarker symbol)
  · simp [hh]
  · simp [hh]

/-- C5: every comment line stored by `add`/`set` is the trimmed source line
prefixed with exactly one marker character and a single space, unless the
trimmed line already begins with that (coerced) marker; a marker argument
other than `';'` and `'#'` is coerced to `';'`. -/
theorem C5_comment_line_format :
    ∀ (str : Str) (symbol : Char),
      add_comments_from_string str symbol =
        ((linesOf str).filter (fun l => is_all_whitespace l = false)).map
          (fun l => spec_marked_line (coerceMarker symbol) (trim l)) ∧
      (symbol ≠ ';' → symbol ≠ '#' → coerceMarker symbol = ';') := by
  intro str symbol
  constructor
  · unfold add_comments_from_string
    induction linesOf str with
    | nil => rfl
    | cons l ls ih =>
        cases hws : is_all_whitespace l with
        | true => simpa [hws] using ih
        | false =>
            simp only [List.filterMap_cons, List.filter_cons, hws, if_false, if_pos rfl,
              List.map_cons, ih, format_comment_line_of_not_ws l symbol hws]
            simp
  · intro _ h2
    unfold coerceMarker
    rw [if_neg h2]

/-- C9: appending an all-whitespace (or empty) string to a comment leaves
the comment state exactly as it was, for any marker; `set` on the same
input clears the comment instead. -/
theorem C9_add_whitespace_noop :
    ∀ (c : Comment) (str : Str) (symbol : Char),
      is_all_whitespace str = true →
      comment_add c str symbol = c ∧ comment_set c str symbol = none := by
  intro c str symbol h
  constructor
  · unfold comment_add
    rw [if_pos h]
  · unfold comment_set
    rw [h]
    simp

/-- C9 witness: adding `" "` to a one-line comment leaves it unchanged
while `set` with `" "` clears it. -/
theorem C9_add_whitespace_noop_witness :
    comment_add (some [[';', ' ', 'x']]) [' '] ';' = some [[';', ' ', 'x']] ∧
    comment_set (some [[';', ' ', 'x']]) [' '] ';' = none :=
  C9_add_whitespace_noop (some [[';', ' ', 'x']]) [' '] ';' (by decide)

/-- C6: on sections and on the document, `at` fails with the not-found
error exactly when the (trimmed) key is absent; `get` returns the stored
field when present and the supplied default otherwise; all three accessors
are modelled as pure functions on the container (the source methods are
`const`), so none of them inserts, and `contains`/`get` are total, never
raising. -/
theorem C6_strict_and_lenient_accessors :
    ∀ (s : Section) (key : Str) (dv : Field) (d : Inifile) (sec : Str),
      ((∃ f, section_at s key = .ok f) ↔ section_contains s key = true) ∧
      (section_at s key = .error .out_of_range ↔ section_contains s key = false) ∧
      (section_get s key dv = match section_at s key with
        | .ok f => f
        | .error _ => dv) ∧
      ((∃ t, inifile_at d sec = .ok t) ↔ inifile_contains d sec = true) ∧
      (inifile_at d sec = .error .out_of_range ↔ inifile_contains d sec = false) ∧
      (inifile_get d sec key dv = match inifile_at d sec with
        | .ok t => section_get t key dv
        | .error _ => dv) := by
  intro s key dv d sec
  refine ⟨?_, ?_, ?_, ?_, ?_, ?_⟩
  · unfold section_at section_contains
    cases assocFind s.data (trim key) <;> simp
  · unfold section_at section_contains
    cases assocFind s.data (trim key) <;> simp
  · unfold section_at section_get
    cases assocFind s.data (trim key) <;> simp
  · unfold inifile_at inifile_contains
    cases assocFind d.data (trim sec) <;> simp
  · unfold inifile_at inifile_contains
    cases assocFind d.data (trim sec) <;> simp
  · unfold inifile_at inifile_get
    cases assocFind d.data (trim sec) with
    | none => simp
    | some t =>
        simp only
        unfold section_get section_contains section_at
        cases assocFind t.data (trim key) <;> simp

theorem ciEqual_iff_map (a b : Str) :
    ciEqual a b = true ↔ a.map c_tolower = b.map c_tolower := by
  induction a generalizing b with
  | nil =>
      cases b <;> simp [ciEqual]
  | cons x xs ih =>
      cases b with
      | nil => simp [ciEqual]
      | cons y ys =>
          have := ih ys
          simp only [ciEqual, List.length_cons, List.zip_cons_cons, List.all_cons,
            List.map_cons, List.cons.injEq] at *
          constructor
          · intro h
            simp only [Bool.and_eq_true, decide_eq_true_eq, Nat.succ.injEq] at h
            exact ⟨h.2.1, this.mp (by simp [ciEqual, h.1, h.2.2])⟩
          · intro h
            have h2 := this.mpr h.2
            simp only [ciEqual, Bool.and_eq_true, decide_eq_true_eq] at h2
            simp [h.1, h2.1, h2.2]

theorem ciFind_congr (d : List (Str × Section)) (a b : Str)
    (h : ciEqual a b = true) : ciFind d a = ciFind d b := by
  induction d with
  | nil => rfl
  | cons p t ih =>
      have hk : ciEqual p.1 a = ciEqual p.1 b := by
        rw [ciEqual_iff_map] at h
        by_cases hx : p.1.map c_tolower = a.map c_tolower
        · rw [(ciEqual_iff_map _ _).mpr hx, (ciEqual_iff_map _ _).mpr (hx.trans h)]
        · have h1 : ciEqual p.1 a = false := by
            cases hq : ciEqual p.1 a with
            | false => rfl
            | true => exact absurd ((ciEqual_iff_map _ _).mp hq) hx
          have h2 : ciEqual p.1 b = false := by
            cases hq : ciEqual p.1 b with
            | false => rfl
            | true => exact absurd (((ciEqual_iff_map _ _).mp hq).trans h.symm) hx
          rw [h1, h2]
      unfold ciFind
      rw [hk, ih]

/-- C8: in the case-insensitive variant, two section names that are equal
up to letter casing resolve identically under `contains`, `at` and
`operator[]`; and once a section exists under some casing, indexing it
under another casing leaves the document (hence the stored, first-written
spelling) unchanged, while a genuinely new name is stored under exactly
the spelling used at first insertion. -/
theorem C8_case_insensitive_resolution :
    ∀ (d : List (Str × Section)) (a b : Str),
      ciEqual (trim a) (trim b) = true →
      ci_contains d a = ci_contains d b ∧
      ci_at d a = ci_at d b ∧
      (ci_idx d a).1 = (ci_idx d b).1 ∧
      (ci_contains d a = true → (ci_idx d b).2 = d) ∧
      (ci_contains d b = false → (ci_idx d b).2 = d ++ [(trim b, emptySection)]) := by
  intro d a b h
  have hf := ciFind_congr d (trim a) (trim b) h
  refine ⟨?_, ?_, ?_, ?_, ?_⟩
  · unfold ci_contains
    rw [hf]
  · unfold ci_at
    rw [hf]
  · unfold ci_idx
    rw [hf]
    cases ciFind d (trim b) <;> rfl
  · intro hc
    unfold ci_contains at hc
    rw [hf] at hc
    unfold ci_idx
    cases hfb : ciFind d (trim b) with
    | none => rw [hfb] at hc; simp at hc
    | some s => rfl
  · intro hc
    unfold ci_contains at hc
    unfold ci_idx
    cases hfb : ciFind d (trim b) with
    | none => rfl
    | some s => rw [hfb] at hc; simp at hc

theorem writeStep_skip (acc : Str × Bool) (a : Str × Section) (ha : a.1 = []) :
    writeStep acc a = acc := by
  unfold writeStep
  rw [if_pos ha]

theorem writeStep_emit (acc : Str × Bool) (a : Str × Section) (ha : a.1 ≠ []) :
    writeStep acc a =
      ((acc.1 ++ (if acc.2 then [] else ['\n'])) ++ sectionChunk a.1 a.2, false) := by
  unfold writeStep
  rw [if_neg ha]

theorem foldl_writeStep_acc (l : List (Str × Section)) (p : Str) (b : Bool) :
    (l.foldl writeStep (p, b)).1 = p ++ (l.foldl writeStep ([], b)).1 := by
  induction l generalizing p b with
  | nil => simp
  | cons a t ih =>
      rw [List.foldl_cons, List.foldl_cons]
      by_cases ha : a.1 = []
      · rw [writeStep_skip _ _ ha, writeStep_skip _ _ ha]
        exact ih p b
      · rw [writeStep_emit _ _ ha, writeStep_emit _ _ ha]
        simp only
        rw [ih ((p ++ (if b then [] else ['\n'])) ++ sectionChunk a.1 a.2) false,
          ih (([] ++ (if b then [] else ['\n'])) ++ sectionChunk a.1 a.2) false]
        simp [List.append_assoc]

theorem foldl_writeStep_false (l : List (Str × Section)) :
    (l.foldl writeStep ([], false)).1 = nlBlocks l := by
  induction l with
  | nil => rfl
  | cons a t ih =>
      rw [List.foldl_cons]
      by_cases ha : a.1 = []
      · rw [writeStep_skip _ _ ha]
        have hf : (a :: t).filter (fun p => p.1 ≠ []) = t.filter (fun p => p.1 ≠ []) := by
          simp [List.filter_cons, ha]
        unfold nlBlocks
        rw [hf]
        exact ih
      · rw [writeStep_emit _ _ ha]
        rw [foldl_writeStep_acc, ih]
        have hf : (a :: t).filter (fun p => p.1 ≠ []) = a :: t.filter (fun p => p.1 ≠ []) := by
          simp [List.filter_cons, ha]
        unfold nlBlocks
        rw [hf, List.map_cons, List.flatten_cons]
        simp

theorem foldl_writeStep_true (l : List (Str × Section)) :
    (l.foldl writeStep ([], true)).1 =
      intercalateNL ((l.filter (fun p => p.1 ≠ [])).map (fun p => sectionChunk p.1 p.2)) := by
  induction l with
  | nil => rfl
  | cons a t ih =>
      rw [List.foldl_cons]
      by_cases ha : a.1 = []
      · rw [writeStep_skip _ _ ha]
        have hf : (a :: t).filter (fun p => p.1 ≠ []) = t.filter (fun p => p.1 ≠ []) := by
          simp [List.filter_cons, ha]
        rw [hf]
        exact ih
      · rw [writeStep_emit _ _ ha]
        rw [foldl_writeStep_acc, foldl_writeStep_false]
        have hf : (a :: t).filter (fun p => p.1 ≠ []) = a :: t.filter (fun p => p.1 ≠ []) := by
          simp [List.filter_cons, ha]
        rw [hf, List.map_cons]
        unfold intercalateNL nlBlocks
        simp only [List.map_map]
        simp
        rfl

theorem write_eq_writeSpec (d : Inifile) : write d = writeSpec d := by
  unfold write writeSpec chunksOf
  cases he : assocFind d.data [] with
  | none =>
      simp only [Option.isNone_none]
      rw [foldl_writeStep_true]
      simp
  | some s =>
      simp only [Option.isNone_some]
      rw [foldl_writeStep_acc, foldl_writeStep_false]
      unfold intercalateNL nlBlocks
      simp only [List.map_map, List.nil_append, List.singleton_append]
      rfl

/-- C7: the serializer's output is exactly: the empty-string section's
`key=value` pairs first, each preceded by its comment lines, with no
header; then every other section in iteration order as a chunk made of its
comment lines, the `[name]` header and its pairs each preceded by their
comment lines — with one blank separator line before every chunk after
the first one emitted, comment lines written exactly as stored. -/
theorem C7_write_layout : ∀ d : Inifile, write d = writeSpec d :=
  fun d => write_eq_writeSpec d

theorem unlines_append (a b : List Str) : unlines (a ++ b) = unlines a ++ unlines b := by
  unfold unlines
  rw [List.map_append, List.flatten_append]

theorem unlines_cons (h : Str) (t : List Str) :
    unlines (h :: t) = (h ++ ['\n']) ++ unlines t := by
  unfold unlines
  rw [List.map_cons, List.flatten_cons]

theorem unlines_flatten (ls : List (List Str)) :
    (ls.map unlines).flatten = unlines ls.flatten := by
  induction ls with
  | nil => rfl
  | cons a t ih =>
      rw [List.map_cons, List.flatten_cons, List.flatten_cons, unlines_append, ih]

theorem commentChunk_eq_unlines (c : Comment) :
    commentChunk c = unlines (commentView c) := rfl

theorem fieldChunk_eq_unlines (k : Str) (f : Field) :
    fieldChunk k f = unlines (fieldLines k f) := by
  unfold fieldChunk fieldLines
  rw [unlines_append, unlines_cons, ← commentChunk_eq_unlines]
  simp [unlines, List.append_assoc]

theorem bodyChunk_eq_unlines (s : Section) : bodyChunk s = unlines (bodyLines s) := by
  unfold bodyChunk bodyLines
  rw [← unlines_flatten, List.map_map]
  congr 1
  exact List.map_congr_left (fun p _ => fieldChunk_eq_unlines p.1 p.2)

theorem sectionChunk_eq_unlines (name : Str) (s : Section) :
    sectionChunk name s = unlines (secLines name s) := by
  unfold sectionChunk secLines
  rw [unlines_append, unlines_cons, ← commentChunk_eq_unlines, ← bodyChunk_eq_unlines]
  simp [List.append_assoc]

theorem chunksOf_eq_map_unlines (d : Inifile) :
    chunksOf d = (lineChunksOf d).map unlines := by
  unfold chunksOf lineChunksOf
  cases assocFind d.data [] with
  | none =>
      simp only [List.nil_append, List.map_map]
      exact List.map_congr_left (fun p _ => sectionChunk_eq_unlines p.1 p.2)
  | some s =>
      simp only [List.map_append, List.map_map, List.map_cons, List.map_nil]
      rw [bodyChunk_eq_unlines]
      congr 1
      exact List.map_congr_left (fun p _ => sectionChunk_eq_unlines p.1 p.2)

theorem writeSpec_eq_unlines (d : Inifile) : writeSpec d = unlines (allLines d) := by
  unfold writeSpec allLines
  rw [chunksOf_eq_map_unlines]
  cases lineChunksOf d with
  | nil => rfl
  | cons c t =>
      rw [List.map_cons]
      show unlines c ++ ((t.map unlines).map (fun b => '\n' :: b)).flatten =
        unlines (c ++ (t.map (fun b => [] :: b)).flatten)
      rw [List.map_map]
      have h1 : t.map ((fun b => '\n' :: b) ∘ unlines) = t.map (fun b => unlines ([] :: b)) :=
        List.map_congr_left (fun b _ => by simp [unlines_cons])
      rw [h1, show (fun b => unlines ([] :: b)) = unlines ∘ (fun b => [] :: b) from rfl,
        ← List.map_map, unlines_flatten, ← unlines_append]

theorem linesOf_cons_ne (c : Char) (cs : Str) (hc : c ≠ '\n') :
    linesOf (c :: cs) =
      match linesOf cs with
      | [] => [[c]]
      | l :: ls => (c :: l) :: ls := by
  simp only [linesOf]
  rw [if_neg hc]

theorem linesOf_append_cons (l r : Str) (h : '\n' ∉ l) :
    linesOf (l ++ '\n' :: r) = l :: linesOf r := by
  induction l with
  | nil => simp [linesOf]
  | cons c cs ih =>
      have hc : c ≠ '\n' := by
        intro hx
        exact h (by simp [hx])
      have hcs : '\n' ∉ cs := fun hx => h (by simp [hx])
      rw [List.cons_append, linesOf_cons_ne c _ hc, ih hcs]

theorem linesOf_unlines (ls : List Str) (h : ∀ l ∈ ls, '\n' ∉ l) :
    linesOf (unlines ls) = ls := by
  induction ls with
  | nil => rfl
  | cons a t ih =>
      rw [unlines_cons, List.append_assoc, List.singleton_append,
        linesOf_append_cons a _ (h a (by simp)), ih (fun l hl => h l (by simp [hl]))]

theorem assocFind_mem {α : Type} (l : List (Str × α)) (k : Str) (v : α)
    (h : assocFind l k = some v) : (k, v) ∈ l := by
  induction l with
  | nil => simp [assocFind] at h
  | cons p t ih =>
      unfold assocFind at h
      by_cases hk : p.1 = k
      · rw [if_pos hk] at h
        cases h
        rw [← hk]
        simp
      · rw [if_neg hk] at h
        exact List.mem_cons_of_mem _ (ih h)

theorem goodKV_line_no_newline (k : Str) (f : Field) (h : GoodKV k f) :
    '\n' ∉ k ++ '=' :: f.value := by
  intro hmem
  rcases List.mem_append.mp hmem with h1 | h1
  · exact h.2.1 h1
  · rcases List.mem_cons.mp h1 with h2 | h2
    · exact absurd h2 (by decide)
    · exact h.2.2.2.2.2.2.1 h2

theorem good_fieldLines_no_newline (k : Str) (f : Field) (h : GoodKV k f) :
    ∀ l ∈ fieldLines k f, '\n' ∉ l := by
  intro l hl
  unfold fieldLines at hl
  rcases List.mem_append.mp hl with h1 | h1
  · exact (h.2.2.2.2.2.2.2 l h1).2.2.2
  · rw [List.mem_singleton.mp h1]
    exact goodKV_line_no_newline k f h

theorem good_secLines_no_newline (name : Str) (s : Section) (h : GoodSection name s) :
    ∀ l ∈ secLines name s, '\n' ∉ l := by
  intro l hl
  unfold secLines at hl
  rcases List.mem_append.mp hl with h1 | h1
  · exact (h.2.2.2.2.1 l h1).2.2.2
  · rcases List.mem_cons.mp h1 with h2 | h2
    · subst h2
      intro hmem
      rcases List.mem_cons.mp hmem with h3 | h3
      · exact absurd h3 (by decide)
      · rcases List.mem_append.mp h3 with h4 | h4
        · exact h.2.1 h4
        · exact absurd (List.mem_singleton.mp h4) (by decide)
    · unfold bodyLines at h2
      rw [List.mem_flatten] at h2
      obtain ⟨ls, hls, hl2⟩ := h2
      rw [List.mem_map] at hls
      obtain ⟨p, hp, rfl⟩ := hls
      exact good_fieldLines_no_newline p.1 p.2 (h.2.2.2.1 p hp) l hl2

theorem good_allLines_no_newline (d : Inifile) (hg : GoodDoc d) :
    ∀ l ∈ allLines d, '\n' ∉ l := by
  have hch : ∀ ch ∈ lineChunksOf d, ∀ l ∈ ch, '\n' ∉ l := by
    intro ch hc l hl
    unfold lineChunksOf at hc
    rcases List.mem_append.mp hc with h1 | h1
    · cases he : assocFind d.data [] with
      | none => rw [he] at h1; simp at h1
      | some s =>
          rw [he] at h1
          rw [List.mem_singleton] at h1
          subst h1
          have hmem := assocFind_mem d.data [] s he
          have hgs := hg.2 ([], s) hmem
          unfold bodyLines at hl
          rw [List.mem_flatten] at hl
          obtain ⟨ls, hls, hl2⟩ := hl
          rw [List.mem_map] at hls
          obtain ⟨p, hp, rfl⟩ := hls
          exact good_fieldLines_no_newline p.1 p.2 (hgs.2.2.2.1 p hp) l hl2
    · rw [List.mem_map] at h1
      obtain ⟨p, hp, rfl⟩ := h1
      have hpd : p ∈ d.data := List.mem_of_mem_filter hp
      exact good_secLines_no_newline p.1 p.2 (hg.2 p hpd) l hl
  intro l hl
  unfold allLines at hl
  cases hc : lineChunksOf d with
  | nil => rw [hc] at hl; simp at hl
  | cons c t =>
      rw [hc] at hl
      rcases List.mem_append.mp hl with h1 | h1
      · exact hch c (by rw [hc]; exact List.mem_cons_self _ _) l h1
      · rw [List.mem_flatten] at h1
        obtain ⟨ls, hls, hl2⟩ := h1
        rw [List.mem_map] at hls
        obtain ⟨b, hb, rfl⟩ := hls
        rcases List.mem_cons.mp hl2 with h2 | h2
        · subst h2
          simp
        · exact hch b (by rw [hc]; exact List.mem_cons_of_mem _ hb) l h2

theorem linesOf_write (d : Inifile) (hg : GoodDoc d) : linesOf (write d) = allLines d := by
  rw [write_eq_writeSpec, writeSpec_eq_unlines]
  exact linesOf_unlines _ (good_allLines_no_newline d hg)

theorem linesOf_single (l : Str) (hne : l ≠ []) (hnl : '\n' ∉ l) : linesOf l = [l] := by
  induction l with
  | nil => exact absurd rfl hne
  | cons c cs ih =>
      have hc : c ≠ '\n' := fun hx => hnl (by simp [hx])
      rw [linesOf_cons_ne c cs hc]
      by_cases hcs : cs = []
      · subst hcs
        rfl
      · rw [ih hcs (fun hx => hnl (by simp [hx]))]

theorem dropWhile_eq_self_of_head (s : Str) (h : ∀ c, s.head? = some c → isWs c = false) :
    s.dropWhile isWs = s := by
  cases s with
  | nil => rfl
  | cons c t =>
      rw [List.dropWhile_cons, h c rfl]
      simp

theorem trim_eq_self_of_ends (s : Str)
    (h1 : ∀ c, s.head? = some c → isWs c = false)
    (h2 : ∀ c, s.getLast? = some c → isWs c = false) : trim s = s := by
  unfold trim
  rw [dropWhile_eq_self_of_head s h1,
    dropWhile_eq_self_of_head s.reverse
      (fun c hc => h2 c (by rwa [List.head?_reverse] at hc)),
    List.reverse_reverse]

theorem trim_self_parts (s : Str) (h : trim s = s) :
    s.dropWhile isWs = s ∧ s.reverse.dropWhile isWs = s.reverse := by
  have hlen : (trim s).length = s.length := by rw [h]
  unfold trim at hlen
  rw [List.length_reverse] at hlen
  have l1 : ((s.dropWhile isWs).reverse.dropWhile isWs).length ≤
      (s.dropWhile isWs).reverse.length := (List.dropWhile_sublist _).length_le
  rw [List.length_reverse] at l1
  have l2 : (s.dropWhile isWs).length ≤ s.length := (List.dropWhile_sublist _).length_le
  have e2 : (s.dropWhile isWs).length = s.length := le_antisymm l2 (by omega)
  have hds : s.dropWhile isWs = s := (List.dropWhile_sublist _).eq_of_length e2
  refine ⟨hds, ?_⟩
  rw [hds] at hlen
  exact (List.dropWhile_sublist _).eq_of_length (by rw [List.length_reverse]; exact hlen)

theorem head_not_ws_of_dropWhile_self (s : Str) (h : s.dropWhile isWs = s) (c : Char)
    (hc : s.head? = some c) : isWs c = false := by
  cases s with
  | nil => simp at hc
  | cons a t =>
      have hac : a = c := by simpa using hc
      subst hac
      rw [List.dropWhile_cons] at h
      by_cases hw : isWs a = true
      · rw [hw] at h
        simp only [if_true] at h
        have hl := congrArg List.length h
        have hle : (t.dropWhile isWs).length ≤ t.length := (List.dropWhile_sublist _).length_le
        simp at hl
        omega
      · cases hb : isWs a with
        | false => rfl
        | true => exact absurd hb hw

theorem head_not_ws_of_trim_self (s : Str) (h : trim s = s) (c : Char)
    (hc : s.head? = some c) : isWs c = false :=
  head_not_ws_of_dropWhile_self s (trim_self_parts s h).1 c hc

theorem last_not_ws_of_trim_self (s : Str) (h : trim s = s) (c : Char)
    (hc : s.getLast? = some c) : isWs c = false :=
  head_not_ws_of_dropWhile_self s.reverse (trim_self_parts s h).2 c
    (by rw [List.head?_reverse]; exact hc)

theorem findCharIdx_append (k v : Str) (hk : '=' ∉ k) :
    findCharIdx '=' (k ++ '=' :: v) = some k.length := by
  induction k with
  | nil =>
      simp [findCharIdx]
  | cons c cs ih =>
      have hc : c ≠ '=' := fun hx => hk (by simp [hx])
      rw [List.cons_append]
      unfold findCharIdx
      rw [if_neg hc, ih (fun hx => hk (by simp [hx]))]
      simp

theorem updateAssoc_absent {α : Type} (l : List (Str × α)) (k : Str) (f : α → α) (d : α)
    (h : ∀ p ∈ l, p.1 ≠ k) : updateAssoc l k f d = l ++ [(k, f d)] := by
  induction l with
  | nil => rfl
  | cons p t ih =>
      unfold updateAssoc
      rw [if_neg (h p (by simp)), ih (fun q hq => h q (by simp [hq]))]
      rfl

theorem updateAssoc_cons {α : Type} (p : Str × α) (t : List (Str × α)) (k : Str)
    (f : α → α) (d : α) :
    updateAssoc (p :: t) k f d =
      if p.1 = k then (p.1, f p.2) :: t else p :: updateAssoc t k f d := by
  cases p
  rfl

theorem assocFind_cons {α : Type} (p : Str × α) (t : List (Str × α)) (k : Str) :
    assocFind (p :: t) k = if p.1 = k then some p.2 else assocFind t k := by
  cases p
  rfl

theorem updateAssoc_last {α : Type} (l : List (Str × α)) (k : Str) (v : α) (f : α → α)
    (d : α) (h : ∀ p ∈ l, p.1 ≠ k) :
    updateAssoc (l ++ [(k, v)]) k f d = l ++ [(k, f v)] := by
  induction l with
  | nil =>
      rw [List.nil_append, updateAssoc_cons, if_pos rfl, List.nil_append]
  | cons p t ih =>
      rw [List.cons_append, updateAssoc_cons, if_neg (h p (by simp)),
        ih (fun q hq => h q (by simp [hq])), List.cons_append]

theorem assocFind_append {α : Type} (a b : List (Str × α)) (k : Str) :
    assocFind (a ++ b) k =
      match assocFind a k with
      | some v => some v
      | none => assocFind b k := by
  induction a with
  | nil => rfl
  | cons p t ih =>
      by_cases hk : p.1 = k
      · rw [List.cons_append, assocFind_cons, assocFind_cons, if_pos hk, if_pos hk]
      · rw [List.cons_append, assocFind_cons, assocFind_cons, if_neg hk, if_neg hk, ih]

theorem assocFind_absent {α : Type} (l : List (Str × α)) (k : Str)
    (h : ∀ p ∈ l, p.1 ≠ k) : assocFind l k = none := by
  induction l with
  | nil => rfl
  | cons p t ih =>
      unfold assocFind
      rw [if_neg (h p (by simp)), ih (fun q hq => h q (by simp [hq]))]

theorem assocFind_map {α β : Type} (l : List (Str × α)) (g : α → β) (k : Str) :
    assocFind (l.map (fun p => (p.1, g p.2))) k = (assocFind l k).map g := by
  induction l with
  | nil => rfl
  | cons p t ih =>
      rw [List.map_cons]
      unfold assocFind
      by_cases hk : p.1 = k
      · rw [if_pos hk, if_pos hk]
        rfl
      · rw [if_neg hk, if_neg hk, ih]

theorem assocFind_filter_ne_nil {α : Type} (l : List (Str × α)) (k : Str) (hk : k ≠ []) :
    assocFind (l.filter (fun p => p.1 ≠ [])) k = assocFind l k := by
  induction l with
  | nil => rfl
  | cons p t ih =>
      rw [List.filter_cons]
      by_cases hp : p.1 = []
      · rw [if_neg (by simp [hp]), ih, assocFind_cons,
          if_neg (by rw [hp]; exact fun hx => hk hx.symm)]
      · rw [if_pos (by simp [hp]), assocFind_cons, assocFind_cons, ih]

theorem readLine_blank (st : PState) : readLine st [] = st := rfl

theorem readLine_comment (st : PState) (l : Str) (h : GoodCommentLine l) :
    readLine st l = ⟨st.doc, st.current, some (commentView st.pending ++ [l])⟩ := by
  obtain ⟨hne, htr, hm, hnl⟩ := h
  obtain ⟨a, t, rfl⟩ : ∃ a t, l = a :: t := by
    cases l with
    | nil => exact absurd rfl hne
    | cons a t => exact ⟨a, t, rfl⟩
  have ham : a = ';' ∨ a = '#' := by
    rcases hm with h1 | h1
    · exact Or.inl (by simpa using h1)
    · exact Or.inr (by simpa using h1)
  have hws : is_all_whitespace (a :: t) = false := by
    have haw : isWs a = false := by
      rcases ham with h1 | h1 <;> (subst h1; decide)
    simp [is_all_whitespace, haw]
  have hca : coerceMarker a = a := by
    rcases ham with h1 | h1 <;> (subst h1; rfl)
  have hfmt : format_comment_line (a :: t) a = a :: t := by
    unfold format_comment_line
    rw [htr, if_neg hne, if_neg (by rw [hca]; simp)]
  have hacs : add_comments_from_string (a :: t) ((a :: t).headD ';') = [a :: t] := by
    unfold add_comments_from_string
    rw [linesOf_single (a :: t) hne hnl]
    have hh : (a :: t).headD ';' = a := rfl
    rw [hh]
    simp only [List.filterMap_cons, List.filterMap_nil, hws, Bool.false_eq_true, if_false,
      hfmt]
  unfold readLine
  rw [htr, if_neg hne, if_pos hm]
  unfold comment_add
  rw [if_neg (by rw [hws]; simp), hacs]
  rfl

theorem readLine_header (st : PState) (name : Str) (hne : name ≠ [])
    (htr : trim name = name) :
    readLine st ('[' :: (name ++ [']'])) =
      ⟨(if commentIsEmpty st.pending then docEnsure st.doc name
        else docSetSecComment (docEnsure st.doc name) name st.pending),
       name,
       (if commentIsEmpty st.pending then st.pending else none)⟩ := by
  have hlast : ('[' :: (name ++ [']'])).getLast? = some ']' := by
    rw [show ('[' :: (name ++ [']'])) = ('[' :: name) ++ [']'] by simp, List.getLast?_concat]
  have hline : trim ('[' :: (name ++ [']'])) = '[' :: (name ++ [']']) := by
    apply trim_eq_self_of_ends
    · intro c hc
      have hcc : '[' = c := by simpa using hc
      subst hcc
      decide
    · intro c hc
      rw [hlast] at hc
      have hcc : ']' = c := by simpa using hc
      subst hcc
      decide
  have hinner : (('[' :: (name ++ [']'])).drop 1).dropLast = name := by
    rw [List.drop_one, List.tail_cons, List.dropLast_concat]
  unfold readLine
  rw [hline, if_neg (by simp), if_neg (by simp), if_pos ⟨rfl, hlast⟩, hinner, htr,
    if_pos hne]
  by_cases hp : commentIsEmpty st.pending <;> simp [hp]

theorem readLine_kv (st : PState) (k v : Str)
    (hk : trim k = k) (hkeq : '=' ∉ k)
    (hkm : ∀ c, k.head? = some c → c ≠ ';' ∧ c ≠ '#')
    (hbr : ¬((k ++ '=' :: v).head? = some '[' ∧ (k ++ '=' :: v).getLast? = some ']'))
    (hv : trim v = v) :
    readLine st (k ++ '=' :: v) =
      ⟨(if commentIsEmpty st.pending then docSetKV st.doc st.current k v
        else docSetFieldComment (docSetKV st.doc st.current k v) st.current k st.pending),
       st.current,
       (if commentIsEmpty st.pending then st.pending else none)⟩ := by
  have hhead : ∀ c, (k ++ '=' :: v).head? = some c → isWs c = false := by
    intro c hc
    cases hkk : k with
    | nil =>
        rw [hkk] at hc
        have hcc : c = '=' := by simpa using hc.symm
        subst hcc
        decide
    | cons b bs =>
        rw [hkk] at hc
        have hbc : b = c := by simpa using hc
        subst hbc
        exact head_not_ws_of_trim_self k hk b (by rw [hkk]; rfl)
  have hlast : ∀ c, (k ++ '=' :: v).getLast? = some c → isWs c = false := by
    intro c hc
    cases hvv : v with
    | nil =>
        rw [hvv] at hc
        rw [show k ++ '=' :: ([] : Str) = k ++ ['='] by rfl, List.getLast?_concat] at hc
        have hcc : c = '=' := by simpa using hc.symm
        subst hcc
        decide
    | cons b bs =>
        rw [hvv] at hc
        rw [List.getLast?_append_cons, List.getLast?_cons_cons] at hc
        exact last_not_ws_of_trim_self v hv c (by rw [hvv]; exact hc)
  have hline : trim (k ++ '=' :: v) = k ++ '=' :: v := trim_eq_self_of_ends _ hhead hlast
  have hne : k ++ '=' :: v ≠ [] := by cases k <;> simp
  have hnosemi : ¬((k ++ '=' :: v).head? = some ';' ∨ (k ++ '=' :: v).head? = some '#') := by
    intro hor
    cases hkk : k with
    | nil =>
        rw [hkk] at hor
        simp at hor
    | cons b bs =>
        rw [hkk] at hor
        have hb := hkm b (by rw [hkk]; rfl)
        rcases hor with h1 | h1
        · exact hb.1 (by simpa using h1)
        · exact hb.2 (by simpa using h1)
  have hfind : findCharIdx '=' (k ++ '=' :: v) = some k.length := findCharIdx_append k v hkeq
  have htake : (k ++ '=' :: v).take k.length = k := by
    rw [List.take_left]
  have hdrop : (k ++ '=' :: v).drop (k.length + 1) = v := by
    rw [show k ++ '=' :: v = (k ++ ['=']) ++ v by simp,
      show k.length + 1 = (k ++ ['=']).length by simp, List.drop_left]
  unfold readLine
  rw [hline, if_neg hne, if_neg hnosemi, if_neg hbr]
  simp only [hfind]
  rw [htake, hdrop, hk, hv]
  by_cases hp : commentIsEmpty st.pending <;> simp [hp]

theorem foldl_comment_lines (ls : List Str) (st : PState)
    (h : ∀ l ∈ ls, GoodCommentLine l) :
    ls.foldl readLine st =
      ⟨st.doc, st.current,
        if ls = [] then st.pending else some (commentView st.pending ++ ls)⟩ := by
  induction ls generalizing st with
  | nil => simp
  | cons l t ih =>
      rw [List.foldl_cons, readLine_comment st l (h l (by simp)),
        ih _ (fun x hx => h x (by simp [hx]))]
      by_cases ht : t = []
      · subst ht
        simp
      · rw [if_neg ht, if_neg (by simp)]
        simp [commentView, List.append_assoc]

theorem foldl_field_lines (doc : List (Str × Section)) (cur : Str) (k : Str) (f : Field)
    (h : GoodKV k f) :
    (fieldLines k f).foldl readLine ⟨doc, cur, none⟩ =
      ⟨(if commentView f.comments = [] then docSetKV doc cur k f.value
        else docSetFieldComment (docSetKV doc cur k f.value) cur k
          (some (commentView f.comments))),
       cur, none⟩ := by
  unfold fieldLines
  rw [List.foldl_append,
    foldl_comment_lines _ _ (fun l hl => h.2.2.2.2.2.2.2 l hl),
    List.foldl_cons, List.foldl_nil]
  by_cases hcv : commentView f.comments = []
  · rw [if_pos hcv, if_pos hcv]
    rw [readLine_kv _ k f.value h.1 h.2.2.1 h.2.2.2.1 h.2.2.2.2.1 h.2.2.2.2.2.1]
    simp [commentIsEmpty, commentView]
  · rw [if_neg hcv, if_neg hcv]
    rw [readLine_kv _ k f.value h.1 h.2.2.1 h.2.2.2.1 h.2.2.2.2.1 h.2.2.2.2.2.1]
    have hpe : commentIsEmpty (some (commentView (none : Comment) ++ commentView f.comments))
        = false := by
      simp [commentIsEmpty, commentView]
      exact hcv
    simp only [hpe, Bool.false_eq_true, if_false]
    simp [commentView]

theorem docSetKV_last (d₀ : List (Str × Section)) (cur : Str) (acc : List (Str × Field))
    (cm : Comment) (k v : Str) (hcur : trim cur = cur) (hk : trim k = k)
    (hfresh : ∀ p ∈ d₀, p.1 ≠ cur) (hkfresh : ∀ q ∈ acc, q.1 ≠ k) :
    docSetKV (d₀ ++ [(cur, ⟨acc, cm⟩)]) cur k v =
      d₀ ++ [(cur, ⟨acc ++ [(k, ⟨v, none⟩)], cm⟩)] := by
  unfold docSetKV
  rw [hcur, hk, updateAssoc_last d₀ cur ⟨acc, cm⟩ _ _ hfresh,
    updateAssoc_absent acc k _ _ hkfresh]
  rfl

theorem docSetKV_new (d₀ : List (Str × Section)) (cur : Str) (k v : Str)
    (hcur : trim cur = cur) (hk : trim k = k) (hfresh : ∀ p ∈ d₀, p.1 ≠ cur) :
    docSetKV d₀ cur k v = d₀ ++ [(cur, ⟨[(k, ⟨v, none⟩)], none⟩)] := by
  unfold docSetKV
  rw [hcur, hk, updateAssoc_absent d₀ cur _ _ hfresh]
  rfl

theorem docSetFieldComment_last (d₀ : List (Str × Section)) (cur : Str)
    (acc : List (Str × Field)) (cm : Comment) (k : Str) (fld : Field) (c : Comment)
    (hcur : trim cur = cur) (hk : trim k = k)
    (hfresh : ∀ p ∈ d₀, p.1 ≠ cur) (hkfresh : ∀ q ∈ acc, q.1 ≠ k) :
    docSetFieldComment (d₀ ++ [(cur, ⟨acc ++ [(k, fld)], cm⟩)]) cur k c =
      d₀ ++ [(cur, ⟨acc ++ [(k, { fld with comments := c })], cm⟩)] := by
  unfold docSetFieldComment
  rw [hcur, hk, updateAssoc_last d₀ cur _ _ _ hfresh,
    updateAssoc_last acc k fld _ _ hkfresh]

theorem foldl_field_block (d₀ : List (Str × Section)) (cur : Str)
    (acc : List (Str × Field)) (cm : Comment) (k : Str) (f : Field) (h : GoodKV k f)
    (hcur : trim cur = cur) (hfresh : ∀ p ∈ d₀, p.1 ≠ cur)
    (hkfresh : ∀ q ∈ acc, q.1 ≠ k) :
    (fieldLines k f).foldl readLine ⟨d₀ ++ [(cur, ⟨acc, cm⟩)], cur, none⟩ =
      ⟨d₀ ++ [(cur, ⟨acc ++ [(k, normField f)], cm⟩)], cur, none⟩ := by
  rw [foldl_field_lines _ _ k f h]
  unfold normField normComment
  by_cases hcv : commentView f.comments = []
  · rw [if_pos hcv, if_pos hcv,
      docSetKV_last d₀ cur acc cm k f.value hcur h.1 hfresh hkfresh]
  · rw [if_neg hcv, if_neg hcv,
      docSetKV_last d₀ cur acc cm k f.value hcur h.1 hfresh hkfresh,
      docSetFieldComment_last d₀ cur acc cm k ⟨f.value, none⟩ _ hcur h.1 hfresh hkfresh]

theorem foldl_field_block_new (d₀ : List (Str × Section)) (cur : Str) (k : Str)
    (f : Field) (h : GoodKV k f) (hcur : trim cur = cur)
    (hfresh : ∀ p ∈ d₀, p.1 ≠ cur) :
    (fieldLines k f).foldl readLine ⟨d₀, cur, none⟩ =
      ⟨d₀ ++ [(cur, ⟨[(k, normField f)], none⟩)], cur, none⟩ := by
  rw [foldl_field_lines _ _ k f h]
  unfold normField normComment
  by_cases hcv : commentView f.comments = []
  · rw [if_pos hcv, if_pos hcv, docSetKV_new d₀ cur k f.value hcur h.1 hfresh]
  · rw [if_neg hcv, if_neg hcv, docSetKV_new d₀ cur k f.value hcur h.1 hfresh,
      show ([(k, (⟨f.value, none⟩ : Field))] : List (Str × Field)) =
        [] ++ [(k, (⟨f.value, none⟩ : Field))] from rfl,
      docSetFieldComment_last d₀ cur [] none k ⟨f.value, none⟩ _ hcur h.1 hfresh
        (by simp)]
    rfl

theorem foldl_body (d₀ : List (Str × Section)) (cur : Str) (fs : List (Str × Field))
    (acc : List (Str × Field)) (cm : Comment)
    (hgood : ∀ q ∈ fs, GoodKV q.1 q.2)
    (hnodup : (acc.map Prod.fst ++ fs.map Prod.fst).Nodup)
    (hcur : trim cur = cur) (hfresh : ∀ p ∈ d₀, p.1 ≠ cur) :
    ((fs.map (fun q => fieldLines q.1 q.2)).flatten).foldl readLine
        ⟨d₀ ++ [(cur, ⟨acc, cm⟩)], cur, none⟩ =
      ⟨d₀ ++ [(cur, ⟨acc ++ fs.map (fun q => (q.1, normField q.2)), cm⟩)], cur, none⟩ := by
  induction fs generalizing acc with
  | nil => simp
  | cons q t ih =>
      have hkfresh : ∀ x ∈ acc, x.1 ≠ q.1 := by
        intro x hx hc
        have h1 : q.1 ∈ acc.map Prod.fst := hc ▸ List.mem_map_of_mem Prod.fst hx
        have h2 := hnodup
        rw [List.nodup_append] at h2
        exact h2.2.2 h1 (by rw [List.map_cons]; exact List.mem_cons_self _ _)
      have hnodup' : ((acc ++ [(q.1, normField q.2)]).map Prod.fst ++
          t.map Prod.fst).Nodup := by
        rw [List.map_append, List.append_assoc]
        simpa using hnodup
      rw [List.map_cons, List.flatten_cons, List.foldl_append,
        foldl_field_block d₀ cur acc cm q.1 q.2 (hgood q (by simp)) hcur hfresh hkfresh,
        ih (acc ++ [(q.1, normField q.2)]) (fun x hx => hgood x (by simp [hx])) hnodup']
      simp [List.append_assoc]

theorem docEnsure_absent (d : List (Str × Section)) (name : Str) (htr : trim name = name)
    (hfresh : ∀ p ∈ d, p.1 ≠ name) :
    docEnsure d name = d ++ [(name, emptySection)] := by
  unfold docEnsure
  rw [htr, updateAssoc_absent d name _ _ hfresh]
  rfl

theorem docSetSecComment_last (d : List (Str × Section)) (name : Str) (s : Section)
    (c : Comment) (htr : trim name = name) (hfresh : ∀ p ∈ d, p.1 ≠ name) :
    docSetSecComment (d ++ [(name, s)]) name c =
      d ++ [(name, { s with comments := c })] := by
  unfold docSetSecComment
  rw [htr, updateAssoc_last d name s _ _ hfresh]

theorem foldl_section_block (d : List (Str × Section)) (cur name : Str) (s : Section)
    (hg : GoodSection name s) (hne : name ≠ [])
    (hfresh : ∀ p ∈ d, p.1 ≠ name) :
    (secLines name s).foldl readLine ⟨d, cur, none⟩ =
      ⟨d ++ [(name, normSection s)], name, none⟩ := by
  obtain ⟨htr, hnl, hnodup, hgoodkv, hgc, _⟩ := hg
  unfold secLines
  rw [List.foldl_append, foldl_comment_lines _ _ (fun l hl => hgc l hl),
    List.foldl_cons, readLine_header _ name hne htr]
  have hens : docEnsure d name = d ++ [(name, emptySection)] :=
    docEnsure_absent d name htr hfresh
  by_cases hcv : commentView s.comments = []
  · rw [if_pos hcv]
    simp only [commentIsEmpty, commentView, Option.getD_none, List.isEmpty_nil, if_pos rfl,
      if_true]
    rw [hens]
    have hbody := foldl_body d name s.data [] none hgoodkv (by simpa using hnodup) htr
      hfresh
    unfold bodyLines
    rw [show (emptySection : Section) = ⟨[], none⟩ from rfl, hbody]
    unfold normSection normComment
    rw [if_pos hcv]
    simp
  · rw [if_neg hcv]
    have hpe : commentIsEmpty (some (commentView (none : Comment) ++ commentView s.comments))
        = false := by
      simp [commentIsEmpty, commentView]
      exact hcv
    simp only [hpe, Bool.false_eq_true, if_false]
    rw [hens, docSetSecComment_last d name emptySection _ htr hfresh]
    have hbody := foldl_body d name s.data []
      (some (commentView (none : Comment) ++ commentView s.comments)) hgoodkv
      (by simpa using hnodup) htr hfresh
    unfold bodyLines
    rw [show ({ emptySection with
        comments := some (commentView (none : Comment) ++ commentView s.comments) } :
          Section) =
        ⟨[], some (commentView (none : Comment) ++ commentView s.comments)⟩ from rfl, hbody]
    unfold normSection normComment
    rw [if_neg hcv]
    simp [commentView]

theorem foldl_blocks (secs : List (Str × Section)) (d₀ : List (Str × Section)) (cur : Str)
    (hgood : ∀ p ∈ secs, GoodSection p.1 p.2 ∧ p.1 ≠ [])
    (hnodup : (secs.map Prod.fst).Nodup)
    (hdisj : ∀ p ∈ secs, ∀ q ∈ d₀, q.1 ≠ p.1) :
    ∃ cur', ((secs.map (fun p => [] :: secLines p.1 p.2)).flatten).foldl readLine
        ⟨d₀, cur, none⟩ =
      ⟨d₀ ++ secs.map (fun p => (p.1, normSection p.2)), cur', none⟩ := by
  induction secs generalizing d₀ cur with
  | nil => exact ⟨cur, by simp⟩
  | cons p t ih =>
      rw [List.map_cons, List.flatten_cons, List.foldl_append, List.foldl_cons,
        readLine_blank,
        foldl_section_block d₀ cur p.1 p.2 (hgood p (by simp)).1 (hgood p (by simp)).2
          (fun q hq => hdisj p (by simp) q hq)]
      obtain ⟨cur', hrec⟩ := ih (d₀ ++ [(p.1, normSection p.2)]) p.1
        (fun x hx => hgood x (by simp [hx]))
        (List.nodup_cons.mp hnodup).2
        (by
          intro x hx q hq
          rcases List.mem_append.mp hq with h1 | h1
          · exact hdisj x (by simp [hx]) q h1
          · rw [List.mem_singleton.mp h1]
            have : p.1 ∉ t.map Prod.fst := (List.nodup_cons.mp hnodup).1
            intro hc
            exact this (hc ▸ List.mem_map_of_mem Prod.fst hx))
      exact ⟨cur', by rw [hrec]; simp [List.append_assoc]⟩

theorem foldl_blocks_noblank (secs d₀ : List (Str × Section)) (cur : Str)
    (hgood : ∀ p ∈ secs, GoodSection p.1 p.2 ∧ p.1 ≠ [])
    (hnodup : (secs.map Prod.fst).Nodup)
    (hdisj : ∀ p ∈ secs, ∀ q ∈ d₀, q.1 ≠ p.1) :
    ∃ cur', (match secs.map (fun p : Str × Section => secLines p.1 p.2) with
        | [] => ([] : List Str)
        | c :: t => c ++ (t.map (fun b => [] :: b)).flatten).foldl readLine
        ⟨d₀, cur, none⟩ =
      ⟨d₀ ++ secs.map (fun p : Str × Section => (p.1, normSection p.2)), cur', none⟩ := by
  cases secs with
  | nil => exact ⟨cur, by simp⟩
  | cons p t =>
      rw [List.map_cons]
      show ∃ cur', (secLines p.1 p.2 ++
          ((t.map (fun p : Str × Section => secLines p.1 p.2)).map
            (fun b => ([] : Str) :: b)).flatten).foldl
            readLine ⟨d₀, cur, none⟩ =
        ⟨d₀ ++ (p :: t).map (fun p => (p.1, normSection p.2)), cur', none⟩
      rw [List.map_map,
        show ((fun b => ([] : Str) :: b) ∘ fun p : Str × Section => secLines p.1 p.2) =
          fun p : Str × Section => [] :: secLines p.1 p.2 from rfl,
        List.foldl_append,
        foldl_section_block d₀ cur p.1 p.2 (hgood p (by simp)).1 (hgood p (by simp)).2
          (fun q hq => hdisj p (by simp) q hq)]
      obtain ⟨cur', hres⟩ := foldl_blocks t (d₀ ++ [(p.1, normSection p.2)]) p.1
        (fun x hx => hgood x (by simp [hx]))
        (List.nodup_cons.mp hnodup).2
        (by
          intro x hx q hq
          rcases List.mem_append.mp hq with h1 | h1
          · exact hdisj x (by simp [hx]) q h1
          · rw [List.mem_singleton.mp h1]
            have hpm : p.1 ∉ t.map Prod.fst := (List.nodup_cons.mp hnodup).1
            intro hc
            exact hpm (hc ▸ List.mem_map_of_mem Prod.fst hx))
      exact ⟨cur', by rw [hres]; simp [List.append_assoc]⟩

theorem readLines_allLines (d : Inifile) (hg : GoodDoc d) :
    (readLines (allLines d)).doc = normalizeDoc d := by
  obtain ⟨hnodup, hgood⟩ := hg
  have hfila : ∀ p ∈ d.data.filter (fun p => p.1 ≠ []), GoodSection p.1 p.2 ∧ p.1 ≠ [] := by
    intro p hp
    have h1 : p ∈ d.data := List.mem_of_mem_filter hp
    have h2 : p.1 ≠ [] := by simpa using List.of_mem_filter hp
    exact ⟨hgood p h1, h2⟩
  have hfnodup : ((d.data.filter (fun p => p.1 ≠ [])).map Prod.fst).Nodup :=
    List.Nodup.sublist ((List.filter_sublist d.data).map Prod.fst) hnodup
  unfold readLines
  cases he : assocFind d.data [] with
  | none =>
      have hall : allLines d =
          (match (d.data.filter (fun p => p.1 ≠ [])).map (fun p => secLines p.1 p.2) with
            | [] => ([] : List Str)
            | c :: t => c ++ (t.map (fun b => [] :: b)).flatten) := by
        unfold allLines lineChunksOf
        rw [he, List.nil_append]
      rw [hall]
      obtain ⟨cur', hres⟩ := foldl_blocks_noblank (d.data.filter (fun p => p.1 ≠ [])) [] []
        hfila hfnodup (fun p _ q hq => absurd hq (List.not_mem_nil q))
      rw [hres]
      unfold normalizeDoc
      rw [he]
  | some s =>
      have hsmem : ([], s) ∈ d.data := assocFind_mem _ _ _ he
      have hgs := hgood ([], s) hsmem
      have hscm : s.comments = none := hgs.2.2.2.2.2 rfl
      have hall : allLines d = bodyLines s ++
          ((d.data.filter (fun p => p.1 ≠ [])).map
            (fun p => [] :: secLines p.1 p.2)).flatten := by
        unfold allLines lineChunksOf
        rw [he]
        show bodyLines s ++
            (((d.data.filter (fun p => p.1 ≠ [])).map
              (fun p : Str × Section => secLines p.1 p.2)).map
                (fun b => ([] : Str) :: b)).flatten = _
        rw [List.map_map]
        rfl
      by_cases hsd : s.data = []
      · have hbnil : bodyLines s = [] := by
          unfold bodyLines
          rw [hsd]
          rfl
        rw [hall, hbnil, List.nil_append]
        obtain ⟨cur', hres⟩ := foldl_blocks (d.data.filter (fun p => p.1 ≠ [])) [] []
          hfila hfnodup (fun p _ q hq => absurd hq (List.not_mem_nil q))
        rw [hres]
        simp only [normalizeDoc, he]
        rw [if_pos hsd]
      · obtain ⟨q, fs, hqfs⟩ : ∃ q fs, s.data = q :: fs := by
          cases hx : s.data with
          | nil => exact absurd hx hsd
          | cons q fs => exact ⟨q, fs, rfl⟩
        rw [hall, List.foldl_append]
        have hqgood : GoodKV q.1 q.2 :=
          hgs.2.2.2.1 q (by rw [hqfs]; exact List.mem_cons_self _ _)
        have hbody1 : (bodyLines s).foldl readLine ⟨[], [], none⟩ =
            ⟨[([], ⟨s.data.map (fun x => (x.1, normField x.2)), none⟩)], [], none⟩ := by
          unfold bodyLines
          rw [hqfs, List.map_cons, List.flatten_cons, List.foldl_append,
            foldl_field_block_new [] [] q.1 q.2 hqgood rfl
              (fun p hp => absurd hp (List.not_mem_nil p))]
          have hnodup2 : (([(q.1, normField q.2)].map Prod.fst ++
              fs.map Prod.fst)).Nodup := by
            have hsn := hgs.2.2.1
            rw [hqfs] at hsn
            exact hsn
          rw [foldl_body [] [] fs [(q.1, normField q.2)] none
              (fun x hx => hgs.2.2.2.1 x
                (by rw [hqfs]; exact List.mem_cons_of_mem _ hx)) hnodup2 rfl
              (fun p hp => absurd hp (List.not_mem_nil p))]
          simp
        rw [hbody1]
        obtain ⟨cur', hres⟩ := foldl_blocks (d.data.filter (fun p => p.1 ≠ []))
          [([], ⟨s.data.map (fun x => (x.1, normField x.2)), none⟩)] []
          hfila hfnodup
          (by
            intro x hx r hr
            rw [List.mem_singleton.mp hr]
            exact fun hc => (hfila x hx).2 hc.symm)
        rw [hres]
        simp only [normalizeDoc, he]
        rw [if_neg hsd]
        unfold normSection
        rw [hscm]
        rfl

theorem roundtrip_doc (d : Inifile) (hg : GoodDoc d) :
    (from_string (to_string d)).data = normalizeDoc d := by
  unfold from_string to_string
  rw [linesOf_write d hg]
  exact readLines_allLines d hg

theorem normComment_view (c : Comment) : commentView (normComment c) = commentView c := by
  unfold normComment
  by_cases h : commentView c = []
  · rw [if_pos h, h]
    rfl
  · rw [if_neg h]
    rfl

theorem assocFind_normalizeDoc (d : Inifile) (name : Str) :
    assocFind (normalizeDoc d) name =
      match assocFind d.data name with
      | some s => if name = [] ∧ s.data = [] then none else some (normSection s)
      | none => none := by
  have habs : ∀ nm : Str, assocFind
      ((d.data.filter (fun p => p.1 ≠ [])).map (fun p => (p.1, normSection p.2))) nm =
      (assocFind (d.data.filter (fun p => p.1 ≠ [])) nm).map normSection :=
    fun nm => assocFind_map _ _ nm
  unfold normalizeDoc
  by_cases hn : name = []
  · subst hn
    have hnone : assocFind
        ((d.data.filter (fun p => p.1 ≠ [])).map (fun p => (p.1, normSection p.2))) [] =
        none := by
      apply assocFind_absent
      intro p hp
      rw [List.mem_map] at hp
      obtain ⟨x, hx, rfl⟩ := hp
      simpa using List.of_mem_filter hx
    cases he : assocFind d.data [] with
    | none =>
        simp only [List.nil_append]
        rw [hnone]
    | some s =>
        show assocFind ((if s.data = [] then [] else [([], normSection s)]) ++
            (d.data.filter (fun p => p.1 ≠ [])).map (fun p => (p.1, normSection p.2)))
            [] =
          (if ([] : Str) = [] ∧ s.data = [] then none else some (normSection s))
        by_cases hd : s.data = []
        · rw [if_pos hd, List.nil_append, hnone, if_pos ⟨rfl, hd⟩]
        · rw [if_neg hd, List.singleton_append, assocFind_cons, if_pos rfl,
            if_neg (by simp [hd])]
  · have hsecond : assocFind
        ((d.data.filter (fun p => p.1 ≠ [])).map (fun p => (p.1, normSection p.2))) name =
        (assocFind d.data name).map normSection := by
      rw [habs, assocFind_filter_ne_nil _ _ hn]
    cases he : assocFind d.data name with
    | none =>
        rw [he] at hsecond
        cases hf : assocFind d.data [] with
        | none =>
            show assocFind (([] : List (Str × Section)) ++
                (d.data.filter (fun p => p.1 ≠ [])).map
                  (fun p => (p.1, normSection p.2))) name = none
            rw [List.nil_append, hsecond]
            rfl
        | some s =>
            show assocFind ((if s.data = [] then [] else [([], normSection s)]) ++
                (d.data.filter (fun p => p.1 ≠ [])).map
                  (fun p => (p.1, normSection p.2))) name = none
            by_cases hd : s.data = []
            · rw [if_pos hd, List.nil_append, hsecond]
              rfl
            · rw [if_neg hd, List.singleton_append, assocFind_cons,
                if_neg (fun hx => hn hx.symm), hsecond]
              rfl
    | some s =>
        rw [he] at hsecond
        show _ = (if name = [] ∧ s.data = [] then none else some (normSection s))
        rw [if_neg (by intro hx; exact hn hx.1)]
        cases hf : assocFind d.data [] with
        | none =>
            show assocFind (([] : List (Str × Section)) ++
                (d.data.filter (fun p => p.1 ≠ [])).map
                  (fun p => (p.1, normSection p.2))) name = some (normSection s)
            rw [List.nil_append, hsecond]
            rfl
        | some s2 =>
            show assocFind ((if s2.data = [] then [] else [([], normSection s2)]) ++
                (d.data.filter (fun p => p.1 ≠ [])).map
                  (fun p => (p.1, normSection p.2))) name = some (normSection s)
            by_cases hd : s2.data = []
            · rw [if_pos hd, List.nil_append, hsecond]
              rfl
            · rw [if_neg hd, List.singleton_append, assocFind_cons,
                if_neg (fun hx => hn hx.symm), hsecond]
              rfl

/-- C1 (as amended): for every serialization-safe document — every key and
value trimmed and newline-free, keys without `'='` and not starting with a
comment marker, no `key=value` line that looks like a `[...]` header,
section names trimmed and newline-free and unique, keys unique per
section, and no section comment on the empty-name pseudo-section —
`from_string (to_string D)` preserves every section's comment lines and
every key's stored text value and comment lines; section/key order is not
preserved. The amendment restricts the claim to such documents: the
mutation API also admits values that the INI line grammar cannot carry
(see `C1_counterexample`). -/
theorem C1_roundtrip_preservation :
    ∀ d : Inifile, GoodDoc d → ∀ name key : Str,
      sec_comment_lines (from_string (to_string d)) name = sec_comment_lines d name ∧
      field_value? (from_string (to_string d)) name key = field_value? d name key ∧
      field_comment_lines (from_string (to_string d)) name key =
        field_comment_lines d name key := by
  intro d hg name key
  have hd : from_string (to_string d) = ⟨normalizeDoc d⟩ := by
    have h := roundtrip_doc d hg
    calc from_string (to_string d) = ⟨(from_string (to_string d)).data⟩ := rfl
      _ = ⟨normalizeDoc d⟩ := by rw [h]
  rw [hd]
  have hfind : assocFind (Inifile.mk (normalizeDoc d)).data name =
      (match assocFind d.data name with
        | some s => if name = [] ∧ s.data = [] then none else some (normSection s)
        | none => none) := assocFind_normalizeDoc d name
  refine ⟨?_, ?_, ?_⟩
  · unfold sec_comment_lines
    rw [hfind]
    cases he : assocFind d.data name with
    | none => rfl
    | some s =>
        show (match (if name = [] ∧ s.data = [] then none else some (normSection s)) with
          | some t => commentView t.comments
          | none => ([] : List Str)) = commentView s.comments
        by_cases hc : name = [] ∧ s.data = []
        · rw [if_pos hc]
          have hgs := hg.2 (name, s) (assocFind_mem _ _ _ he)
          have hcm : s.comments = none := hgs.2.2.2.2.2 hc.1
          rw [hcm]
          rfl
        · rw [if_neg hc]
          show commentView (normComment s.comments) = commentView s.comments
          exact normComment_view s.comments
  · unfold field_value?
    rw [hfind]
    cases he : assocFind d.data name with
    | none => rfl
    | some s =>
        show (match (if name = [] ∧ s.data = [] then none else some (normSection s)) with
          | some t => (assocFind t.data key).map (fun f => f.value)
          | none => none) = (assocFind s.data key).map (fun f => f.value)
        by_cases hc : name = [] ∧ s.data = []
        · rw [if_pos hc, hc.2]
          rfl
        · rw [if_neg hc]
          show (assocFind (normSection s).data key).map (fun f => f.value) = _
          unfold normSection
          rw [show (⟨s.data.map (fun p => (p.1, normField p.2)),
              normComment s.comments⟩ : Section).data =
            s.data.map (fun p => (p.1, normField p.2)) from rfl, assocFind_map]
          cases assocFind s.data key <;> rfl
  · unfold field_comment_lines
    rw [hfind]
    cases he : assocFind d.data name with
    | none => rfl
    | some s =>
        show (match (if name = [] ∧ s.data = [] then none else some (normSection s)) with
          | some t =>
              match assocFind t.data key with
              | some f => commentView f.comments
              | none => ([] : List Str)
          | none => ([] : List Str)) =
          (match assocFind s.data key with
            | some f => commentView f.comments
            | none => ([] : List Str))
        by_cases hc : name = [] ∧ s.data = []
        · rw [if_pos hc, hc.2]
          rfl
        · rw [if_neg hc]
          show (match assocFind (normSection s).data key with
            | some f => commentView f.comments
            | none => []) = _
          unfold normSection
          rw [show (⟨s.data.map (fun p => (p.1, normField p.2)),
              normComment s.comments⟩ : Section).data =
            s.data.map (fun p => (p.1, normField p.2)) from rfl, assocFind_map]
          cases assocFind s.data key with
          | none => rfl
          | some f =>
              show commentView (normField f).comments = commentView f.comments
              exact normComment_view f.comments

/-- C1 witness: the amended round-trip property at a concrete document
with one section, one commented key and a section comment. -/
theorem C1_roundtrip_preservation_witness :
    sec_comment_lines
        (from_string (to_string ⟨[("s".data,
          ⟨[("k".data, ⟨"v".data, some ["; c".data]⟩)], some ["; sc".data]⟩)]⟩))
        "s".data =
      sec_comment_lines ⟨[("s".data,
          ⟨[("k".data, ⟨"v".data, some ["; c".data]⟩)], some ["; sc".data]⟩)]⟩ "s".data ∧
    field_value?
        (from_string (to_string ⟨[("s".data,
          ⟨[("k".data, ⟨"v".data, some ["; c".data]⟩)], some ["; sc".data]⟩)]⟩))
        "s".data "k".data =
      field_value? ⟨[("s".data,
          ⟨[("k".data, ⟨"v".data, some ["; c".data]⟩)], some ["; sc".data]⟩)]⟩
        "s".data "k".data ∧
    field_comment_lines
        (from_string (to_string ⟨[("s".data,
          ⟨[("k".data, ⟨"v".data, some ["; c".data]⟩)], some ["; sc".data]⟩)]⟩))
        "s".data "k".data =
      field_comment_lines ⟨[("s".data,
          ⟨[("k".data, ⟨"v".data, some ["; c".data]⟩)], some ["; sc".data]⟩)]⟩
        "s".data "k".data :=
  C1_roundtrip_preservation
    ⟨[("s".data, ⟨[("k".data, ⟨"v".data, some ["; c".data]⟩)], some ["; sc".data]⟩)]⟩
    (by decide) "s".data "k".data

/-- C1 counterexample: the document built through the mutation API by
`set("s", "k", " v")` (a `std::string`-typed value, stored verbatim) does
not survive the round trip — re-parsing trims the value to `"v"`, so the
stored text value is not preserved. -/
theorem C1_counterexample :
    field_value? (inifile_set ⟨[]⟩ "s".data "k".data " v".data) "s".data "k".data =
      some " v".data ∧
    field_value? (from_string (to_string (inifile_set ⟨[]⟩ "s".data "k".data " v".data)))
      "s".data "k".data = some "v".data ∧
    (" v".data : Str) ≠ "v".data := by
  decide

/-- C2 counterexample: parsing `"[a]\nk=1\n[ ]\nk2=2\n"` puts `k2` into
the empty-string section, not into `a` — the empty-name header does reset
the current section context. -/
theorem C2_counterexample :
    field_value? (from_string "[a]\nk=1\n[ ]\nk2=2\n".data) [] "k2".data = some "2".data ∧
    field_value? (from_string "[a]\nk=1\n[ ]\nk2=2\n".data) "a".data "k2".data = none ∧
    inifile_contains (from_string "[a]\nk=1\n[ ]\nk2=2\n".data) [] = true := by
  decide

/-- C2 (as amended): a line whose trimmed form is a bracket pair with
all-whitespace inner text does not create the empty-string section and
leaves the document and the pending comment buffer unchanged, but it does
reset the current section context to the empty string, so subsequent
`key=value` lines are stored in the empty-string section. -/
theorem C2_empty_header_resets_current :
    ∀ (st : PState) (raw : Str),
      trim raw ≠ [] →
      (trim raw).head? = some '[' →
      (trim raw).getLast? = some ']' →
      trim (((trim raw).drop 1).dropLast) = [] →
      readLine st raw = ⟨st.doc, [], st.pending⟩ := by
  intro st raw h1 h2 h3 h4
  unfold readLine
  rw [if_neg h1, if_neg (by rw [h2]; simp), if_pos ⟨h2, h3⟩, if_neg (by rw [h4]; simp)]

/-- C2 witness: the amended behaviour at the concrete line `" [ ] "` from
a state whose current section is `"a"`. -/
theorem C2_empty_header_resets_current_witness :
    readLine ⟨[], ['a'], some [['#']]⟩ " [ ] ".data = ⟨[], [], some [['#']]⟩ :=
  C2_empty_header_resets_current ⟨[], ['a'], some [['#']]⟩ " [ ] ".data
    (by decide) (by decide) (by decide) (by decide)

/-- C8 witness: `"SECTION"` and `"section"` resolve to the same existing
section stored under `"Section"`, and indexing under the other casing
does not change the stored document. -/
theorem C8_case_insensitive_resolution_witness :
    ci_contains [("Section".data, emptySection)] "SECTION".data =
      ci_contains [("Section".data, emptySection)] "section".data ∧
    (ci_idx [("Section".data, emptySection)] "section".data).2 =
      [("Section".data, emptySection)] :=
  ⟨(C8_case_insensitive_resolution [("Section".data, emptySection)]
      "SECTION".data "section".data (by decide)).1,
   (C8_case_insensitive_resolution [("Section".data, emptySection)]
      "SECTION".data "section".data (by decide)).2.2.2.1 (by decide)⟩

end Ini
